import Mathlib

/-!
Verification of the predict-translate-annotation scripts.

Each namespace below is a shallow embedding of one Python script of the
repository.  Pure functions of the scripts become Lean functions; the
XML trees that the scripts walk become explicit inductive trees; Python
dictionaries become association lists with insert-overwrites-in-place
semantics; fallible code (uncaught exceptions) returns `Option` or a
dedicated outcome type.  Theorems at the end of the file settle the
specification claims about these embeddings.
-/

set_option maxHeartbeats 1000000

/-! ## decrease_segid.py

`main` (lines 16-42) reads a file line by line.  For a line in which the
regular expression `segId="(\d+)"` matches with captured number `N`, the
line is rewritten with the number replaced exactly when
`N >= start_idx` and (`end_idx is None or end_idx < N`); the replacement
number is `N + 1` when `do_increase` is set and `N - 1` otherwise.  All
other lines are kept unchanged.  A line is modelled by the captured
number (`none` when the pattern does not match) together with the rest
of its contents, which the substitution leaves untouched.  Numbers are
`Int` because Python's `N - 1` may go below zero.
-/

namespace DecreaseSegid

/-- A text line, abstracted to what the regex sees: the first
`segId="N"` number if the pattern matches, plus the surrounding
content that `re.sub` leaves unchanged. -/
structure SrcLine where
  segId : Option Int
  content : String
  deriving Repr, DecidableEq

/-- One iteration of the loop of `main` (decrease_segid.py lines 24-39):
rewrite the segId number of a matching line when `matched_idx >= start_idx`
and (`end_idx is None or end_idx < matched_idx`). -/
def process_line (start_idx : Int) (end_idx : Option Int) (do_increase : Bool)
    (l : SrcLine) : SrcLine :=
  match l.segId with
  | none => l
  | some matched_idx =>
    if matched_idx ≥ start_idx then
      if end_idx.elim true (fun e => decide (e < matched_idx)) = true then
        if do_increase then { l with segId := some (matched_idx + 1) }
        else { l with segId := some (matched_idx - 1) }
      else l
    else l

/-- The whole rewriting pass of `main` over the lines of the file. -/
def main (start_idx : Int) (end_idx : Option Int) (do_increase : Bool)
    (lines : List SrcLine) : List SrcLine :=
  lines.map (process_line start_idx end_idx do_increase)

end DecreaseSegid

/-! ## reset_xml_counter.py

`fix_char_pos` (lines 38-44) reads the `Cursor` attribute of the first
element matched by an xpath, converts it to an integer, and subtracts
that value from the `Cursor` attribute of every matched element that has
one.  The elements matched by the xpath are modelled as a list in
document order (`tree.find` returns the head of `tree.findall`); the
`Cursor` attribute is an `Option Int` (string storage and `int`/`str`
conversion are inverse bijections on canonical decimal integers); the
other attributes of an element, which the function never touches, are
kept as an opaque `rest` string.  A `none` result models the uncaught
exception raised when `find` returns `None` or the first element has no
`Cursor` attribute (`int(None)`). -/

namespace ResetXmlCounter

/-- An element matched by the xpath of `fix_char_pos`: its `Cursor`
attribute, if any, and its remaining unmodified data. -/
structure CEl where
  cursor : Option Int
  rest : String
  deriving Repr, DecidableEq

/-- `fix_char_pos` (reset_xml_counter.py lines 38-44) on the list of
matched elements. -/
def fix_char_pos (els : List CEl) : Option (List CEl) :=
  match els with
  | [] => none
  | first :: _ =>
    match first.cursor with
    | none => none
    | some f =>
      some (els.map (fun el =>
        match el.cursor with
        | none => el
        | some c => { el with cursor := some (c - f) }))

end ResetXmlCounter

/-! ## fix_tokenization.py

`process_man_file` (lines 19-50) walks the `W` elements of a `.src` or
`.tgt` file in document order and rewrites their `cur` and `id`
attributes: `cur` is set to the running cursor plus the length of the
word's own `space` attribute, `id` to a 1-based running index; the word
text is HTML-unescaped in place, the running cursor advances by the
space length plus the length of the unescaped text, and the function
returns the total number of characters removed by unescaping.  A `W`
element is modelled by its `space` attribute (`none` when absent), its
text and its `cur`/`id` attributes; `html.unescape` is an arbitrary
parameter function on strings.  Re-sorting of the attribute dictionary
(line 43) only affects serialisation order of attributes and is not
represented. -/

namespace FixTokenization

/-- A `W` element of a `.src`/`.tgt` file: the attributes touched by
`process_man_file` plus its text. -/
structure Wel where
  id : String
  cur : String
  space : Option String
  text : String
  deriving Repr, DecidableEq

/-- `len(word.get("space")) if "space" in word.attrib else 0`
(fix_tokenization.py line 30). -/
def spaceLen (w : Wel) : Nat :=
  match w.space with
  | some s => s.length
  | none => 0

/-- The loop of `process_man_file` (fix_tokenization.py lines 29-46),
with the running cursor, the running id and the accumulated character
difference made explicit.  Returns the rewritten words and the character
difference contributed by the remaining words. -/
def processWords (unesc : String → String) :
    List Wel → Nat → Nat → List Wel × Int
  | [], _, _ => ([], 0)
  | w :: ws, curr_cursor, curr_id =>
    let space_len := spaceLen w
    let newText := unesc w.text
    let diff : Int := (w.text.length : Int) - (newText.length : Int)
    let w' : Wel := { w with cur := toString (curr_cursor + space_len),
                             id := toString curr_id,
                             text := newText }
    let rest := processWords unesc ws (curr_cursor + space_len + newText.length)
        (curr_id + 1)
    (w' :: rest.1, diff + rest.2)

/-- `process_man_file` (fix_tokenization.py lines 19-50) on the document
order list of `W` elements: cursor starts at 0, ids start at 1.  Returns
the rewritten words and the returned `char_diff`. -/
def process_man_file (unesc : String → String) (ws : List Wel) :
    List Wel × Int :=
  processWords unesc ws 0 1

/-- The cursor value the claim ascribes to a word list prefix: the sum
over the words of space length plus unescaped text length. -/
def cumLen (unesc : String → String) (ws : List Wel) : Nat :=
  (ws.map (fun w => spaceLen w + (unesc w.text).length)).sum

/-- The total number of characters removed from the word texts by
unescaping, as the claim describes the return value. -/
def charDiffSum (unesc : String → String) (ws : List Wel) : Int :=
  (ws.map (fun w => (w.text.length : Int) - ((unesc w.text).length : Int))).sum

end FixTokenization

/-! ## tmx2txt.py

`process` (lines 7-15) iterates over the translation units of a TMX file
and writes `f"{node.source}\n"` to the source output file and
`f"{node.target}\n"` to the target output file, in unit order.  Texts
and file contents are modelled as lists of characters; a write appends
to the file contents. -/

namespace Tmx2Txt

/-- A translation unit yielded by `tmx_file.unit_iter()`: its source and
target texts. -/
structure TUnit where
  source : List Char
  target : List Char
  deriving Repr, DecidableEq

/-- The writing loop of `process` (tmx2txt.py lines 13-15): starting
from empty output files, append each unit's source text plus newline to
the source file and its target text plus newline to the target file. -/
def process (units : List TUnit) : List Char × List Char :=
  units.foldl
    (fun acc u => (acc.1 ++ u.source ++ ['\n'], acc.2 ++ u.target ++ ['\n']))
    ([], [])

/-- The lines of a text file, with Python `splitlines` conventions for
the newline character: a trailing newline does not open a final empty
line, and an empty file has no lines. -/
def fileLines : List Char → List (List Char)
  | [] => []
  | c :: cs =>
    if c = '\n' then [] :: fileLines cs
    else
      match fileLines cs with
      | [] => [[c]]
      | l :: ls => (c :: l) :: ls

end Tmx2Txt

/-! ## XML element trees

A shared model of `xml.etree.ElementTree` elements, used by the
embeddings of `atag_fix.py` and `add_lang_tag.py`: an element has a tag,
an attribute dictionary, an optional text, an optional tail and a list
of children.  Python dictionaries are association lists in insertion
order; assigning to an existing key overwrites the value in place,
assigning a new key appends. -/

namespace Xml

/-- Insert-or-overwrite into a Python dictionary modelled as an
association list in insertion order: an existing key keeps its position
and gets the new value, a new key is appended. -/
def dictInsert {α β : Type} [BEq α] (d : List (α × β)) (k : α) (v : β) :
    List (α × β) :=
  if d.any (fun p => p.1 == k) then
    d.map (fun p => if p.1 == k then (k, v) else p)
  else d ++ [(k, v)]

/-- Dictionary lookup: the value of the first (hence, by construction,
only) entry with the given key. -/
def dictLookup {α β : Type} [BEq α] (d : List (α × β)) (k : α) : Option β :=
  (d.find? (fun p => p.1 == k)).map (fun p => p.2)

/-- An `ElementTree` element. -/
inductive XTree where
  | mk (tag : String) (attrib : List (String × String))
       (text : Option String) (tail : Option String)
       (children : List XTree)
  deriving Repr

def XTree.tag : XTree → String
  | .mk t _ _ _ _ => t

def XTree.attrib : XTree → List (String × String)
  | .mk _ a _ _ _ => a

def XTree.text : XTree → Option String
  | .mk _ _ x _ _ => x

def XTree.tail : XTree → Option String
  | .mk _ _ _ l _ => l

def XTree.children : XTree → List XTree
  | .mk _ _ _ _ c => c

/-- Python `el.get(key)`: dictionary lookup in the attribute dict,
`None` when absent. -/
def XTree.get (t : XTree) (key : String) : Option String :=
  dictLookup t.attrib key

/-- Python `el.get(key, default)`. -/
def XTree.getD (t : XTree) (key dflt : String) : String :=
  (t.get key).getD dflt

/-- Python `el.set(key, value)`: dictionary assignment in the attribute
dict. -/
def XTree.set (t : XTree) (key value : String) : XTree :=
  .mk t.tag (dictInsert t.attrib key value) t.text t.tail t.children

end Xml

namespace Xml

mutual

/-- Structural equality test on elements (used to model removal of an
element from a list of children: Python removes by object identity, and
for the removals performed by these scripts the removed object is
structurally determined). -/
def beqT : XTree → XTree → Bool
  | .mk t1 a1 x1 l1 c1, .mk t2 a2 x2 l2 c2 =>
    t1 == t2 && a1 == a2 && x1 == x2 && l1 == l2 && beqL c1 c2

/-- Structural equality test on lists of elements. -/
def beqL : List XTree → List XTree → Bool
  | [], [] => true
  | _ :: _, [] => false
  | [], _ :: _ => false
  | c :: cs, d :: ds => beqT c d && beqL cs ds

end

/-- Python `list.remove(x)` on a child list: delete the first occurrence
of the element.  (Python removes by object identity; in every removal
the scripts perform, identity and structural equality select the same
element, see the modelling notes of atag_fix.py below.) -/
def removeFirst : List XTree → XTree → List XTree
  | [], _ => []
  | y :: ys, x => if beqT y x then ys else y :: removeFirst ys x

end Xml

/-! ## add_lang_tag.py

`process_file` (lines 12-42) parses an XML file; if the tree already has
a `Languages` element (`tree.find(".//Languages")`, which searches the
proper descendants of the root in document order) the file is skipped;
otherwise the first `lockWindows` descendant is located, a fresh
`Languages` element carrying the source/target/task attributes and the
tail of `lockWindows` is inserted into the parent of `lockWindows`
directly after it, and the tree is written back.  When there is no
`lockWindows` descendant the function raises `KeyError` (modelled as
`Except.error` with the raised message), which no caller catches. -/

namespace AddLangTag

open Xml

/-- Replace the tail of an element (Python `el.tail = ...`). -/
def XTree.withTail (t : XTree) (tl : Option String) : XTree :=
  .mk t.tag t.attrib t.text tl t.children

mutual

/-- Whether a subtree (its root included) contains an element with the
given tag. -/
def subtreeHasTag (tg : String) : XTree → Bool
  | .mk t _ _ _ cs => t == tg || listHasTag tg cs

/-- Whether any element of any of the subtrees has the given tag. -/
def listHasTag (tg : String) : List XTree → Bool
  | [] => false
  | c :: cs => subtreeHasTag tg c || listHasTag tg cs

end

/-- `tree.find(".//" + tg) is not None`: whether a proper descendant of
the root has the given tag. -/
def hasDescTag (tg : String) (t : XTree) : Bool :=
  listHasTag tg t.children

mutual

/-- Number of elements with the given tag in a subtree, root included. -/
def countTagT (tg : String) : XTree → Nat
  | .mk t _ _ _ cs => (if t == tg then 1 else 0) + countTagL tg cs

/-- Number of elements with the given tag in a list of subtrees. -/
def countTagL (tg : String) : List XTree → Nat
  | [] => 0
  | c :: cs => countTagT tg c + countTagL tg cs

end

mutual

/-- Insertion step of `process_file` (add_lang_tag.py lines 27-40) on a
subtree: locate the first `lockWindows` element in document order and
insert `newEl`, carrying the tail of that element, directly after it in
its parent's child list.  The flag reports whether an insertion
happened. -/
def insertAfterLock (newEl : XTree) : XTree → XTree × Bool
  | .mk t a x l cs =>
    let r := insertAfterLockL newEl cs
    (.mk t a x l r.1, r.2)

/-- Insertion step on a child list: the first child tagged
`lockWindows` found in document order (a child is visited before its
own descendants and before its later siblings) receives `newEl` as its
immediate next sibling. -/
def insertAfterLockL (newEl : XTree) : List XTree → List XTree × Bool
  | [] => ([], false)
  | c :: cs =>
    if c.tag == "lockWindows" then
      (c :: XTree.withTail newEl c.tail :: cs, true)
    else
      let rc := insertAfterLock newEl c
      if rc.2 then (rc.1 :: cs, true)
      else
        let rcs := insertAfterLockL newEl cs
        (c :: rcs.1, rcs.2)

end

/-- The fresh element created at add_lang_tag.py line 35 (before its
tail is copied from `lockWindows`). -/
def languagesEl (src_lang tgt_lang task : String) : XTree :=
  .mk "Languages" [("source", src_lang), ("target", tgt_lang), ("task", task)]
    none none []

/-- `process_file` (add_lang_tag.py lines 12-42) on the parsed tree.
`Except.error` is the uncaught `KeyError` of line 33. -/
def process_file (tree : XTree) (src_lang tgt_lang task : String) :
    Except String XTree :=
  if hasDescTag "Languages" tree then .ok tree
  else
    let languages := languagesEl src_lang tgt_lang task
    let r := insertAfterLock languages tree
    if r.2 then .ok r.1
    else .error "Your XML does not have a lockWindows element, which is required."

mutual

/-- Whether a subtree contains two consecutive siblings satisfying a
binary predicate. -/
def hasAdjPairT (p : XTree → XTree → Bool) : XTree → Bool
  | .mk _ _ _ _ cs => hasAdjPairL p cs

/-- Whether a list of subtrees contains, at any depth, two consecutive
siblings satisfying a binary predicate. -/
def hasAdjPairL (p : XTree → XTree → Bool) : List XTree → Bool
  | [] => false
  | [c] => hasAdjPairT p c
  | a :: b :: rest => p a b || hasAdjPairT p a || hasAdjPairL p (b :: rest)

end

end AddLangTag

/-! ## atag_fix.py

`AtagFixer` reconciles an "original" and a "manually corrected" set of
`.src`/`.tgt`/`.atag` files.  The embedding below covers
`elements_equal` (lines 75-83), `orig_man_mapping` (lines 179-189) and
`update_atag` (lines 191-243) for one identifier.

Modelling notes, matching the data format produced by
`create_atag_from_src.py` and YAWAT:
* a sentence (the value of `sents_orig[identifier][seg_id][direction]`)
  is a `<tree/>` element whose children are the `W` elements of the
  segment, in document order;
* the root of an `.atag` file has the `alignFile`, `salign` and `align`
  elements as its direct children, so `findall(".//align")` returns
  exactly the children tagged `align` and `remove` applies to them;
* the key letters `a_keyfiles["src"]` and `a_keyfiles["tgt"]`
  (lines 205-206) are passed in as `keySrc`/`keyTgt`; their extraction
  from the `href` path suffixes is filesystem glue;
* `tree_root.remove(el)` removes the `align` object found by the last
  query; structurally this is the first occurrence of that element, and
  every structurally equal element is matched by the same query and
  removed by the same loop, so `List.erase` is faithful;
* an f-string interpolation of `el.get(...)` renders `None` as the
  string `"None"` (`fstr` below);
* the uncaught `TypeError` raised by `el.get("in")[1:]` when the `in`
  attribute is absent, and the uncaught `ValueError` raised by `int()`
  in the final sort key, are both modelled by the `exn` outcome; the
  caught `KeyError` of lines 224-229, which makes `update_atag` print
  and return `True` early without writing the file, is the
  `errorSkipped` outcome. -/

namespace AtagFix

open Xml

mutual

/-- `AtagFixer.elements_equal` (atag_fix.py lines 75-83): two elements
are equal when their texts are equal, their child counts are equal, and
their zipped children are recursively equal.  Tags, attributes and tails
are not examined. -/
def elements_equal : XTree → XTree → Bool
  | .mk _ _ x1 _ c1, .mk _ _ x2 _ c2 =>
    if x1 ≠ x2 then false
    else if c1.length ≠ c2.length then false
    else elements_equal_zip c1 c2

/-- `all(self.elements_equal(c1, c2) for c1, c2 in zip(e1, e2))`: the
conjunction over the zip of two child lists, which stops at the shorter
list. -/
def elements_equal_zip : List XTree → List XTree → Bool
  | c1 :: cs1, c2 :: cs2 => elements_equal c1 c2 && elements_equal_zip cs1 cs2
  | _, _ => true

end

/-- Python f-string conversion of an `el.get(...)` result: `None` prints
as the four characters `None`. -/
def fstr : Option String → String
  | none => "None"
  | some s => s

/-- The four sentence trees `update_atag` consults for one valid source
segment: the original and manual `.src` trees of the segment and the
original and manual `.tgt` trees of the aligned target segment. -/
structure SegTrees where
  srcOrig : XTree
  srcMan : XTree
  tgtOrig : XTree
  tgtMan : XTree

/-- `AtagFixer.orig_man_mapping` (atag_fix.py lines 179-189): zip the
original and manual sentence trees and map each original word id to the
manual word id at the same position, with Python dict overwrite
semantics on duplicate original ids. -/
def orig_man_mapping (orig_tree man_tree : XTree) :
    List (Option String × Option String) :=
  (orig_tree.children.zip man_tree.children).foldl
    (fun mapping p => dictInsert mapping (p.1.get "id") (p.2.get "id")) []

/-- The intermediate state of the `update_atag` loops: either the
current query tree children and output (`valid_tree`) children, or one
of the two abnormal exits. -/
inductive LoopRes where
  | cont (tree valid : List XTree)
  | errorReturn
  | exn

/-- The selector `.//align[@out='src_xml_id']`: an element tagged
`align` whose `out` attribute equals the queried id. -/
def isAlignOut (src_xml_id : String) (el : XTree) : Bool :=
  el.tag == "align" && el.get "out" == some src_xml_id

/-- The body of the inner `for el in tree.findall(...)` loop
(atag_fix.py lines 219-234) over the snapshot of matched elements: set
`out` to the manual source id, look up the stripped `in` id in the
target mapping and set `in` to the manual target id, append the
rewritten element to `valid`, and remove the element from `tree`.  A
missing `in` attribute is the uncaught `TypeError` of `None[1:]`; a
failed target lookup is the caught `KeyError` that makes the function
return early. -/
def processMatches (keySrc keyTgt : String)
    (tgtMap : List (Option String × Option String)) (manIdx : Option String) :
    List XTree → List XTree → List XTree → LoopRes
  | [], tree, valid => .cont tree valid
  | el :: rest, tree, valid =>
    let el1 := el.set "out" (keySrc ++ fstr manIdx)
    match el1.get "in" with
    | none => .exn
    | some inval =>
      match dictLookup tgtMap (some (inval.drop 1)) with
      | none => .errorReturn
      | some man_tgt =>
        let el2 := el1.set "in" (keyTgt ++ fstr man_tgt)
        processMatches keySrc keyTgt tgtMap manIdx rest (removeFirst tree el)
          (valid ++ [el2])

/-- One iteration of the `for orig_src_token_idx, man_src_token_idx`
loop (atag_fix.py lines 216-234): take the snapshot
`tree.findall(f".//align[@out='{src_xml_id}']")` and process it. -/
def processToken (keySrc keyTgt : String)
    (tgtMap : List (Option String × Option String))
    (origIdx manIdx : Option String) (tree valid : List XTree) : LoopRes :=
  let src_xml_id := keySrc ++ fstr origIdx
  processMatches keySrc keyTgt tgtMap manIdx
    (tree.filter (isAlignOut src_xml_id)) tree valid

/-- The `for` loop over the entries of `idx_maps["src"]` in insertion
order. -/
def processTokens (keySrc keyTgt : String)
    (tgtMap : List (Option String × Option String)) :
    List (Option String × Option String) → List XTree → List XTree → LoopRes
  | [], tree, valid => .cont tree valid
  | (origIdx, manIdx) :: rest, tree, valid =>
    match processToken keySrc keyTgt tgtMap origIdx manIdx tree valid with
    | .cont tree1 valid1 => processTokens keySrc keyTgt tgtMap rest tree1 valid1
    | r => r

/-- The outer `for src_seg_id in valid_segs` loop (atag_fix.py lines
210-234): build the source and target token mappings of the segment and
run the token loop. -/
def processSegs (keySrc keyTgt : String) :
    List SegTrees → List XTree → List XTree → LoopRes
  | [], tree, valid => .cont tree valid
  | sg :: rest, tree, valid =>
    let srcMap := orig_man_mapping sg.srcOrig sg.srcMan
    let tgtMap := orig_man_mapping sg.tgtOrig sg.tgtMan
    match processTokens keySrc keyTgt tgtMap srcMap tree valid with
    | .cont tree1 valid1 => processSegs keySrc keyTgt rest tree1 valid1
    | r => r

/-- Decimal digit accumulator for `parseInt`. -/
def parseNatAux : List Char → Nat → Option Nat
  | [], acc => some acc
  | c :: cs, acc =>
    if c.isDigit then parseNatAux cs (acc * 10 + (c.toNat - 48)) else none

/-- Python `int(...)` on the strings that occur as ids in these files:
an optional minus sign followed by one or more decimal digits; `none`
is the `ValueError` raised on any other string. -/
def parseInt (s : String) : Option Int :=
  match s.data with
  | [] => none
  | c :: cs =>
    if c = '-' then
      match cs with
      | [] => none
      | _ => (parseNatAux cs 0).map (fun n => -(n : Int))
    else (parseNatAux (c :: cs) 0).map (fun n => (n : Int))

/-- The sort key of atag_fix.py lines 238-239:
`(int(node.get("in", "b0")[1:]), int(node.get("out", "a0")[1:]))`.
`none` is the uncaught `ValueError` of a non-numeric id. -/
def sortKey (node : XTree) : Option (Int × Int) :=
  match parseInt ((node.getD "in" "b0").drop 1),
      parseInt ((node.getD "out" "a0").drop 1) with
  | some i, some o => some (i, o)
  | _, _ => none

/-- Strict lexicographic order on Python int pairs. -/
def lexLt (a b : Int × Int) : Bool :=
  decide (a.1 < b.1) || (a.1 == b.1 && decide (a.2 < b.2))

/-- Insert an element in front of the first element whose key is not
smaller: with `insSort` below this is a stable sort, as Python
`sorted` is. -/
def insertFront {α : Type} (key : α → Int × Int) (x : α) : List α → List α
  | [] => [x]
  | y :: ys =>
    if lexLt (key y) (key x) then y :: insertFront key x ys else x :: y :: ys

/-- Stable insertion sort by key. -/
def insSort {α : Type} (key : α → Int × Int) : List α → List α
  | [] => []
  | x :: xs => insertFront key x (insSort key xs)

/-- `sorted(valid_tree_root, key=...)`: compute the key of every child
(failing like Python `int()` on a non-numeric id) and sort stably. -/
def sortChildren (cs : List XTree) : Option (List XTree) :=
  match cs.mapM (fun c => (sortKey c).map (fun k => (k, c))) with
  | none => none
  | some keyed => some ((insSort Prod.fst keyed).map Prod.snd)

/-- The children of the fresh `valid_tree` (atag_fix.py lines 200-203):
a copy of the parsed tree with every `align` element removed. -/
def validInit (rootChildren : List XTree) : List XTree :=
  rootChildren.filter (fun c => !(c.tag == "align"))

/-- The observable outcome of `update_atag`: the root children of the
rewritten file (function returns `False`), the early `return True` with
the file left unwritten, or an uncaught exception. -/
inductive UpdateOutcome where
  | written (children : List XTree)
  | errorSkipped
  | exn

/-- `AtagFixer.update_atag` (atag_fix.py lines 191-243) for one
identifier: `rootChildren` are the children of the parsed `.atag` root,
`segs` the data of the valid segments in `valid_segs` order. -/
def update_atag (keySrc keyTgt : String) (segs : List SegTrees)
    (rootChildren : List XTree) : UpdateOutcome :=
  match processSegs keySrc keyTgt segs rootChildren (validInit rootChildren) with
  | .errorReturn => .errorSkipped
  | .exn => .exn
  | .cont _ valid =>
    match sortChildren valid with
    | none => .exn
    | some sortedChildren => .written sortedChildren

end AtagFix

namespace AtagFix

open Xml

mutual

/-- Whether two trees differ at most in attribute values and tail text:
same tag, same text, and recursively matching children lists of equal
length.  Used to state what `elements_equal` ignores. -/
def eqModAttribTail : XTree → XTree → Bool
  | .mk t1 _ x1 _ c1, .mk t2 _ x2 _ c2 =>
    t1 == t2 && x1 == x2 && eqModAttribTailL c1 c2

/-- Pointwise `eqModAttribTail` on child lists of equal length. -/
def eqModAttribTailL : List XTree → List XTree → Bool
  | [], [] => true
  | [], _ :: _ => false
  | _ :: _, [] => false
  | a :: as, b :: bs => eqModAttribTail a b && eqModAttribTailL as bs

end

/-- The rewrite that one iteration of the inner loop of `update_atag`
(atag_fix.py lines 220-223) applies to a single matched `align` element:
set `out` to the manual source id and `in` to the manual target id found
by looking up the stripped previous `in` id; `none` when the element has
no `in` attribute or the lookup fails. -/
def rewriteEl (keySrc keyTgt : String)
    (tgtMap : List (Option String × Option String)) (manIdx : Option String)
    (el : XTree) : Option XTree :=
  let el1 := el.set "out" (keySrc ++ fstr manIdx)
  match el1.get "in" with
  | none => none
  | some inval =>
    match dictLookup tgtMap (some (inval.drop 1)) with
    | none => none
    | some man_tgt => some (el1.set "in" (keyTgt ++ fstr man_tgt))

end AtagFix

/-!
# Theorems

Everything below this point is a proof about the definitions above.
-/

namespace Xml

mutual

theorem beqT_iff : (a b : XTree) → (beqT a b = true ↔ a = b)
  | .mk t1 a1 x1 l1 c1, .mk t2 a2 x2 l2 c2 => by
    simp only [beqT, Bool.and_eq_true, beq_iff_eq, XTree.mk.injEq]
    constructor
    · rintro ⟨⟨⟨⟨h1, h2⟩, h3⟩, h4⟩, h5⟩
      exact ⟨h1, h2, h3, h4, (beqL_iff c1 c2).mp h5⟩
    · rintro ⟨h1, h2, h3, h4, h5⟩
      exact ⟨⟨⟨⟨h1, h2⟩, h3⟩, h4⟩, (beqL_iff c1 c2).mpr h5⟩

theorem beqL_iff : (as bs : List XTree) → (beqL as bs = true ↔ as = bs)
  | [], [] => by simp [beqL]
  | _ :: _, [] => by simp [beqL]
  | [], _ :: _ => by simp [beqL]
  | c :: cs, d :: ds => by
    simp only [beqL, Bool.and_eq_true, List.cons.injEq]
    constructor
    · rintro ⟨h1, h2⟩
      exact ⟨(beqT_iff c d).mp h1, (beqL_iff cs ds).mp h2⟩
    · rintro ⟨h1, h2⟩
      exact ⟨(beqT_iff c d).mpr h1, (beqL_iff cs ds).mpr h2⟩

end

theorem beqT_refl (a : XTree) : beqT a a = true := (beqT_iff a a).mpr rfl

theorem beqT_eq_false_of_ne {a b : XTree} (h : a ≠ b) : beqT a b = false := by
  cases hb : beqT a b with
  | false => rfl
  | true => exact absurd ((beqT_iff a b).mp hb) h

end Xml

/-- C2: the claim (and the script's own `--end_idx` help text, lines
53-54) says the change happens exactly for `start_idx ≤ N` and, when
`end_idx` is given, `N ≤ end_idx`.  The code instead tests
`end_idx < N`: a line with `segId="5"` is left unchanged under
`start_idx = 3, end_idx = 10` although `3 ≤ 5 ≤ 10`, while a line with
`segId="11"` is decreased although `11 > 10`. -/
theorem decrease_segid_range_bug :
    DecreaseSegid.process_line 3 (some 10) false ⟨some 5, "line"⟩
        = ⟨some 5, "line"⟩ ∧
      DecreaseSegid.process_line 3 (some 10) false ⟨some 11, "line"⟩
        = ⟨some 10, "line"⟩ := by
  exact ⟨rfl, rfl⟩

/-- C9: `fix_char_pos` is idempotent.  When the first matched element
has a `Cursor` attribute (so one application succeeds and yields `out`),
the first element of `out` has cursor 0, and the second application
subtracts 0 from every cursor and returns `out` unchanged. -/
theorem fix_char_pos_idempotent (els out : List ResetXmlCounter.CEl)
    (h : ResetXmlCounter.fix_char_pos els = some out) :
    ResetXmlCounter.fix_char_pos out = some out := by
  match els with
  | [] => simp [ResetXmlCounter.fix_char_pos] at h
  | first :: rest =>
    match hc : first.cursor with
    | none => simp [ResetXmlCounter.fix_char_pos, hc] at h
    | some f =>
      simp only [ResetXmlCounter.fix_char_pos, hc, Option.some.injEq] at h
      subst h
      simp only [List.map_cons, hc]
      simp only [ResetXmlCounter.fix_char_pos, Int.sub_self]
      congr 1
      have hpt : ∀ el : ResetXmlCounter.CEl,
          (match el.cursor with
            | none => el
            | some c => { el with cursor := some (c - 0) }) = el := by
        intro el
        obtain ⟨ec, er⟩ := el
        cases ec with
        | none => rfl
        | some c => simp
      rw [List.map_congr_left (fun el _ => hpt el)]
      simp

/-- Witness for C9 at a concrete input. -/
theorem fix_char_pos_idempotent_witness :
    ResetXmlCounter.fix_char_pos
        [⟨some 3, "a"⟩, ⟨none, "b"⟩, ⟨some 7, "c"⟩]
      = some [⟨some 0, "a"⟩, ⟨none, "b"⟩, ⟨some 4, "c"⟩] ∧
    ResetXmlCounter.fix_char_pos
        [⟨some 0, "a"⟩, ⟨none, "b"⟩, ⟨some 4, "c"⟩]
      = some [⟨some 0, "a"⟩, ⟨none, "b"⟩, ⟨some 4, "c"⟩] :=
  ⟨rfl, fix_char_pos_idempotent
    [⟨some 3, "a"⟩, ⟨none, "b"⟩, ⟨some 7, "c"⟩]
    [⟨some 0, "a"⟩, ⟨none, "b"⟩, ⟨some 4, "c"⟩] rfl⟩

namespace FixTokenization

theorem processWords_length (unesc : String → String) (ws : List Wel)
    (c0 i0 : Nat) : (processWords unesc ws c0 i0).1.length = ws.length := by
  induction ws generalizing c0 i0 with
  | nil => rfl
  | cons w ws ih => simp [processWords, ih]

theorem processWords_diff (unesc : String → String) (ws : List Wel)
    (c0 i0 : Nat) : (processWords unesc ws c0 i0).2 = charDiffSum unesc ws := by
  induction ws generalizing c0 i0 with
  | nil => rfl
  | cons w ws ih =>
    simp [processWords, charDiffSum, ih]

theorem processWords_get (unesc : String → String) (ws : List Wel)
    (c0 i0 n : Nat) (h1 : n < (processWords unesc ws c0 i0).1.length)
    (h2 : n < ws.length) :
    ((processWords unesc ws c0 i0).1.get ⟨n, h1⟩).id = toString (i0 + n) ∧
    ((processWords unesc ws c0 i0).1.get ⟨n, h1⟩).cur
      = toString (c0 + cumLen unesc (ws.take n) + spaceLen (ws.get ⟨n, h2⟩)) := by
  induction ws generalizing c0 i0 n with
  | nil => exact absurd h2 (by simp)
  | cons w ws ih =>
    cases n with
    | zero =>
      constructor
      · simp [processWords]
      · simp [processWords, cumLen]
    | succ n =>
      have h2w : n < ws.length := Nat.lt_of_succ_lt_succ h2
      have h1w : n < (processWords unesc ws
          (c0 + spaceLen w + (unesc w.text).length) (i0 + 1)).1.length := by
        rw [processWords_length]; exact h2w
      have := ih (c0 + spaceLen w + (unesc w.text).length) (i0 + 1) n h1w h2w
      constructor
      · have hid := this.1
        simp only [processWords, List.get_cons_succ]
        rw [hid]
        congr 1
        omega
      · have hcur := this.2
        simp only [processWords, List.get_cons_succ]
        rw [hcur]
        congr 1
        simp [cumLen]
        omega

end FixTokenization

/-- C3: after `process_man_file` on the word list of a `.src`/`.tgt`
file, the `n`-th `W` element (1-based `n + 1` for 0-based index `n`) has
`id = str(n + 1)` and `cur` equal to the sum over all earlier words of
space length plus unescaped text length, plus its own space length; the
returned value is the total number of characters removed by
unescaping. -/
theorem process_man_file_reindexes (unesc : String → String)
    (ws : List FixTokenization.Wel) (n : Nat)
    (h1 : n < (FixTokenization.process_man_file unesc ws).1.length)
    (h2 : n < ws.length) :
    ((FixTokenization.process_man_file unesc ws).1.get ⟨n, h1⟩).id
        = toString (n + 1) ∧
      ((FixTokenization.process_man_file unesc ws).1.get ⟨n, h1⟩).cur
        = toString (FixTokenization.cumLen unesc (ws.take n)
            + FixTokenization.spaceLen (ws.get ⟨n, h2⟩)) ∧
      (FixTokenization.process_man_file unesc ws).2
        = FixTokenization.charDiffSum unesc ws := by
  have hg := FixTokenization.processWords_get unesc ws 0 1 n h1 h2
  refine ⟨?_, ?_, FixTokenization.processWords_diff unesc ws 0 1⟩
  · show ((FixTokenization.processWords unesc ws 0 1).1.get ⟨n, h1⟩).id
        = toString (n + 1)
    rw [hg.1]; congr 1; omega
  · show ((FixTokenization.processWords unesc ws 0 1).1.get ⟨n, h1⟩).cur
        = toString (FixTokenization.cumLen unesc (ws.take n)
            + FixTokenization.spaceLen (ws.get ⟨n, h2⟩))
    rw [hg.2]; congr 1; omega

/-- Witness for C3 at a concrete input: three words, one with no space
attribute, under the identity unescaper. -/
theorem process_man_file_reindexes_witness :
    ((FixTokenization.process_man_file (fun s => s)
        [⟨"9", "9", some " ", "ab"⟩, ⟨"9", "9", none, "cde"⟩,
         ⟨"9", "9", some " ", "f"⟩]).1.get ⟨1, by decide⟩).id = "2" ∧
    ((FixTokenization.process_man_file (fun s => s)
        [⟨"9", "9", some " ", "ab"⟩, ⟨"9", "9", none, "cde"⟩,
         ⟨"9", "9", some " ", "f"⟩]).1.get ⟨1, by decide⟩).cur = "3" ∧
    (FixTokenization.process_man_file (fun s => s)
        [⟨"9", "9", some " ", "ab"⟩, ⟨"9", "9", none, "cde"⟩,
         ⟨"9", "9", some " ", "f"⟩]).2 = 0 := by
  have := process_man_file_reindexes (fun s => s)
    [⟨"9", "9", some " ", "ab"⟩, ⟨"9", "9", none, "cde"⟩,
     ⟨"9", "9", some " ", "f"⟩] 1 (by decide) (by decide)
  refine ⟨this.1, ?_, ?_⟩
  · rw [this.2.1]; rfl
  · rw [this.2.2]; rfl

namespace Tmx2Txt

theorem process_eq (units : List TUnit) :
    process units = ((units.map (fun u => u.source ++ ['\n'])).flatten,
      (units.map (fun u => u.target ++ ['\n'])).flatten) := by
  suffices h : ∀ acc : List Char × List Char,
      units.foldl (fun acc u =>
          (acc.1 ++ u.source ++ ['\n'], acc.2 ++ u.target ++ ['\n'])) acc
        = (acc.1 ++ (units.map (fun u => u.source ++ ['\n'])).flatten,
           acc.2 ++ (units.map (fun u => u.target ++ ['\n'])).flatten) by
    have := h ([], [])
    simpa [process] using this
  induction units with
  | nil => intro acc; simp
  | cons u us ih =>
    intro acc
    simp only [List.foldl_cons, ih, List.map_cons, List.flatten_cons]
    simp [List.append_assoc]

theorem fileLines_append (x rest : List Char) (hx : '\n' ∉ x) :
    fileLines (x ++ '\n' :: rest) = x :: fileLines rest := by
  induction x with
  | nil => simp [fileLines]
  | cons c x ih =>
    have hc : ¬ c = '\n' := fun h => hx (by simp [h])
    have hx2 : '\n' ∉ x := fun h => hx (List.mem_cons_of_mem _ h)
    simp only [List.cons_append, fileLines, if_neg hc, List.append_eq]
    rw [ih hx2]

theorem fileLines_flatten (xs : List (List Char))
    (h : ∀ x ∈ xs, '\n' ∉ x) :
    fileLines (xs.map (fun x => x ++ ['\n'])).flatten = xs := by
  induction xs with
  | nil => rfl
  | cons x xs ih =>
    simp only [List.map_cons, List.flatten_cons, List.append_assoc,
      List.singleton_append]
    rw [fileLines_append x _ (h x (List.mem_cons_self x xs))]
    rw [ih (fun y hy => h y (List.mem_cons_of_mem _ hy))]

end Tmx2Txt

/-- C8 counterexample: the claim concludes that the two output files
always have one line per unit and equal line counts, but a unit whose
source text itself contains a newline produces two lines in the source
file and one in the target file. -/
theorem tmx_process_line_counts_counterexample :
    (Tmx2Txt.fileLines (Tmx2Txt.process [⟨['a', '\n', 'b'], ['c']⟩]).1).length
      ≠ (Tmx2Txt.fileLines (Tmx2Txt.process [⟨['a', '\n', 'b'], ['c']⟩]).2).length := by
  decide

/-- C8 (amended): `process` writes, for every unit in iteration order,
the unit's source text followed by a newline to the source file and the
unit's target text followed by a newline to the target file;
consequently, provided no unit's source or target text contains a
newline character, the two files contain one line per unit, in unit
order, and have equal line counts. -/
theorem tmx_process_writes_parallel_lines (units : List Tmx2Txt.TUnit)
    (h : ∀ u ∈ units, '\n' ∉ u.source ∧ '\n' ∉ u.target) :
    Tmx2Txt.process units
        = ((units.map (fun u => u.source ++ ['\n'])).flatten,
           (units.map (fun u => u.target ++ ['\n'])).flatten) ∧
      Tmx2Txt.fileLines (Tmx2Txt.process units).1
        = units.map Tmx2Txt.TUnit.source ∧
      Tmx2Txt.fileLines (Tmx2Txt.process units).2
        = units.map Tmx2Txt.TUnit.target ∧
      (Tmx2Txt.fileLines (Tmx2Txt.process units).1).length
        = (Tmx2Txt.fileLines (Tmx2Txt.process units).2).length := by
  have hp := Tmx2Txt.process_eq units
  have hs : Tmx2Txt.fileLines (Tmx2Txt.process units).1
      = units.map Tmx2Txt.TUnit.source := by
    rw [hp]
    have := Tmx2Txt.fileLines_flatten (units.map Tmx2Txt.TUnit.source)
      (fun x hx => by
        obtain ⟨u, hu, rfl⟩ := List.mem_map.mp hx
        exact (h u hu).1)
    simpa [Function.comp] using this
  have ht : Tmx2Txt.fileLines (Tmx2Txt.process units).2
       = units.map Tmx2Txt.TUnit.target := by
    rw [hp]
    have := Tmx2Txt.fileLines_flatten (units.map Tmx2Txt.TUnit.target)
      (fun x hx => by
        obtain ⟨u, hu, rfl⟩ := List.mem_map.mp hx
        exact (h u hu).2)
    simpa [Function.comp] using this
  refine ⟨hp, hs, ht, ?_⟩
  rw [hs, ht]
  simp

/-- Witness for the amended C8 at a concrete two-unit input. -/
theorem tmx_process_writes_parallel_lines_witness :
    Tmx2Txt.process [⟨['a', 'b'], ['c']⟩, ⟨['d'], []⟩]
        = (['a', 'b', '\n', 'd', '\n'], ['c', '\n', '\n']) ∧
      Tmx2Txt.fileLines
          (Tmx2Txt.process [⟨['a', 'b'], ['c']⟩, ⟨['d'], []⟩]).1
        = [['a', 'b'], ['d']] ∧
      Tmx2Txt.fileLines
          (Tmx2Txt.process [⟨['a', 'b'], ['c']⟩, ⟨['d'], []⟩]).2
        = [['c'], []] ∧
      (Tmx2Txt.fileLines
          (Tmx2Txt.process [⟨['a', 'b'], ['c']⟩, ⟨['d'], []⟩]).1).length
        = (Tmx2Txt.fileLines
          (Tmx2Txt.process [⟨['a', 'b'], ['c']⟩, ⟨['d'], []⟩]).2).length := by
  have := tmx_process_writes_parallel_lines
    [⟨['a', 'b'], ['c']⟩, ⟨['d'], []⟩] (by decide)
  exact ⟨by decide, this.2.1, this.2.2.1, this.2.2.2⟩

namespace AtagFix

open Xml

theorem elements_equal_zip_iff : (c1 c2 : List XTree) →
    (elements_equal_zip c1 c2 = true ↔
      ∀ i (h1 : i < c1.length) (h2 : i < c2.length),
        elements_equal (c1.get ⟨i, h1⟩) (c2.get ⟨i, h2⟩) = true)
  | [], _ => by
    simp only [elements_equal_zip, List.length_nil, true_iff]
    intro i h1
    exact absurd h1 (Nat.not_lt_zero i)
  | _ :: _, [] => by
    simp only [elements_equal_zip, List.length_nil, true_iff]
    intro i h1 h2
    exact absurd h2 (Nat.not_lt_zero i)
  | a :: as, b :: bs => by
    rw [show elements_equal_zip (a :: as) (b :: bs)
        = (elements_equal a b && elements_equal_zip as bs) from rfl]
    simp only [Bool.and_eq_true, elements_equal_zip_iff as bs]
    constructor
    · rintro ⟨hab, hrest⟩ i h1 h2
      cases i with
      | zero => exact hab
      | succ i =>
          exact hrest i (Nat.lt_of_succ_lt_succ h1) (Nat.lt_of_succ_lt_succ h2)
    · intro hall
      refine ⟨hall 0 (Nat.succ_pos _) (Nat.succ_pos _), fun i h1 h2 => ?_⟩
      exact hall (i + 1) (Nat.succ_lt_succ h1) (Nat.succ_lt_succ h2)

theorem elements_equal_characterization (e1 e2 : XTree) :
    elements_equal e1 e2 = true ↔
      (e1.text = e2.text ∧ e1.children.length = e2.children.length ∧
        ∀ i (h1 : i < e1.children.length) (h2 : i < e2.children.length),
          elements_equal (e1.children.get ⟨i, h1⟩) (e2.children.get ⟨i, h2⟩)
            = true) := by
  obtain ⟨t1, a1, x1, l1, c1⟩ := e1
  obtain ⟨t2, a2, x2, l2, c2⟩ := e2
  show (if x1 ≠ x2 then false
      else if c1.length ≠ c2.length then false
      else elements_equal_zip c1 c2) = true ↔ _
  by_cases hx : x1 = x2
  · by_cases hl : c1.length = c2.length
    · simp [hx, hl, elements_equal_zip_iff, XTree.text, XTree.children]
    · simp [hx, hl, XTree.text, XTree.children]
  · simp [hx, XTree.text, XTree.children]

mutual

theorem elements_equal_symm : (a b : XTree) →
    elements_equal a b = elements_equal b a
  | .mk t1 a1 x1 l1 c1, .mk t2 a2 x2 l2 c2 => by
    show (if x1 ≠ x2 then false
        else if c1.length ≠ c2.length then false
        else elements_equal_zip c1 c2)
      = (if x2 ≠ x1 then false
        else if c2.length ≠ c1.length then false
        else elements_equal_zip c2 c1)
    by_cases hx : x1 = x2
    · by_cases hl : c1.length = c2.length
      · simp [hx, hl, elements_equal_zip_symm c1 c2]
      · have hl2 : ¬ c2.length = c1.length := fun h => hl h.symm
        simp [hx, hl, hl2]
    · have hx2 : ¬ x2 = x1 := fun h => hx h.symm
      simp [hx, hx2]

theorem elements_equal_zip_symm : (as bs : List XTree) →
    elements_equal_zip as bs = elements_equal_zip bs as
  | [], [] => rfl
  | [], _ :: _ => rfl
  | _ :: _, [] => rfl
  | a :: as, b :: bs => by
    show (elements_equal a b && elements_equal_zip as bs)
      = (elements_equal b a && elements_equal_zip bs as)
    rw [elements_equal_symm a b, elements_equal_zip_symm as bs]

end

mutual

theorem elements_equal_of_eqMod : (a b : XTree) →
    eqModAttribTail a b = true → elements_equal a b = true
  | .mk t1 a1 x1 l1 c1, .mk t2 a2 x2 l2 c2 => by
    intro h
    rw [show eqModAttribTail (.mk t1 a1 x1 l1 c1) (.mk t2 a2 x2 l2 c2)
        = (t1 == t2 && (x1 == x2) && eqModAttribTailL c1 c2) from rfl] at h
    simp only [Bool.and_eq_true, beq_iff_eq] at h
    obtain ⟨⟨ht, hx⟩, hcl⟩ := h
    have hc := elements_equal_zipL_of_eqMod c1 c2 hcl
    show (if x1 ≠ x2 then false
        else if c1.length ≠ c2.length then false
        else elements_equal_zip c1 c2) = true
    simp [hx, hc.1, hc.2]

theorem elements_equal_zipL_of_eqMod : (as bs : List XTree) →
    eqModAttribTailL as bs = true →
    elements_equal_zip as bs = true ∧ as.length = bs.length
  | [], [] => by intro h; exact ⟨rfl, rfl⟩
  | [], _ :: _ => by intro h; simp [eqModAttribTailL] at h
  | _ :: _, [] => by intro h; simp [eqModAttribTailL] at h
  | a :: as, b :: bs => by
    intro h
    rw [show eqModAttribTailL (a :: as) (b :: bs)
        = (eqModAttribTail a b && eqModAttribTailL as bs) from rfl] at h
    simp only [Bool.and_eq_true] at h
    have hr := elements_equal_zipL_of_eqMod as bs h.2
    refine ⟨?_, by simp [hr.2]⟩
    show (elements_equal a b && elements_equal_zip as bs) = true
    simp [elements_equal_of_eqMod a b h.1, hr.1]

end

end AtagFix

/-- C10: `elements_equal` returns `True` exactly when the root texts
are equal, the child counts are equal and positionally corresponding
children are recursively element-equal; consequently trees that differ
only in their tags, attribute values and tail texts are judged equal,
and the relation is symmetric. -/
theorem elements_equal_spec :
    (∀ e1 e2 : Xml.XTree, AtagFix.elements_equal e1 e2 = true ↔
      (e1.text = e2.text ∧ e1.children.length = e2.children.length ∧
        ∀ i (h1 : i < e1.children.length) (h2 : i < e2.children.length),
          AtagFix.elements_equal (e1.children.get ⟨i, h1⟩)
            (e2.children.get ⟨i, h2⟩) = true)) ∧
    (∀ e1 e2 : Xml.XTree, AtagFix.eqModAttribTail e1 e2 = true →
      AtagFix.elements_equal e1 e2 = true) ∧
    (∀ e1 e2 : Xml.XTree,
      AtagFix.elements_equal e1 e2 = AtagFix.elements_equal e2 e1) :=
  ⟨AtagFix.elements_equal_characterization,
   AtagFix.elements_equal_of_eqMod,
   AtagFix.elements_equal_symm⟩

/-- Witness for C10: two one-word sentence trees whose `W` children
differ in their `id` attribute and tail only are judged element-equal
by an application of the claim theorem. -/
theorem elements_equal_spec_witness :
    AtagFix.elements_equal
        (Xml.XTree.mk "tree" [] none none
          [Xml.XTree.mk "W" [("id", "1")] (some "word") none []])
        (Xml.XTree.mk "tree" [] none none
          [Xml.XTree.mk "W" [("id", "7")] (some "word") (some "x") []])
      = true :=
  elements_equal_spec.2.1 _ _ (by rfl)

namespace AddLangTag

open Xml

theorem countTagT_withTail (tg : String) (t : XTree) (tl : Option String) :
    countTagT tg (XTree.withTail t tl) = countTagT tg t := by
  obtain ⟨a, b, c, d, e⟩ := t
  rfl

mutual

theorem insertAfterLock_flag : (newEl t : XTree) →
    (insertAfterLock newEl t).2 = listHasTag "lockWindows" t.children
  | newEl, .mk t a x l cs => by
    show (insertAfterLockL newEl cs).2 = listHasTag "lockWindows" cs
    exact insertAfterLockL_flag newEl cs

theorem insertAfterLockL_flag : (newEl : XTree) → (cs : List XTree) →
    (insertAfterLockL newEl cs).2 = listHasTag "lockWindows" cs
  | _, [] => rfl
  | newEl, c :: cs => by
    show (if c.tag == "lockWindows" then
        (c :: XTree.withTail newEl c.tail :: cs, true)
      else
        let rc := insertAfterLock newEl c
        if rc.2 then (rc.1 :: cs, true)
        else
          let rcs := insertAfterLockL newEl cs
          (c :: rcs.1, rcs.2)).2
      = (subtreeHasTag "lockWindows" c || listHasTag "lockWindows" cs)
    cases htag : (c.tag == "lockWindows") with
    | true =>
      obtain ⟨ct, ca, cx, cl, cc⟩ := c
      simp only [XTree.tag] at htag
      simp [subtreeHasTag, htag]
    | false =>
      have hc := insertAfterLock_flag newEl c
      obtain ⟨ct, ca, cx, cl, cc⟩ := c
      simp only [XTree.tag] at htag
      simp only [htag, if_false, Bool.false_eq_true]
      simp only [XTree.children] at hc
      cases hcc : listHasTag "lockWindows" cc with
      | true =>
        simp [hc, hcc, subtreeHasTag, htag]
      | false =>
        simp [hc, hcc, subtreeHasTag, htag, insertAfterLockL_flag newEl cs]

end

mutual

theorem subtree_countTag_zero : (tg : String) → (t : XTree) →
    subtreeHasTag tg t = false → countTagT tg t = 0
  | tg, .mk t a x l cs => by
    intro h
    show (if t == tg then 1 else 0) + countTagL tg cs = 0
    rw [show subtreeHasTag tg (.mk t a x l cs)
        = (t == tg || listHasTag tg cs) from rfl] at h
    simp only [Bool.or_eq_false_iff] at h
    rw [list_countTag_zero tg cs h.2]
    simp [h.1]

theorem list_countTag_zero : (tg : String) → (cs : List XTree) →
    listHasTag tg cs = false → countTagL tg cs = 0
  | _, [] => by intro _; rfl
  | tg, c :: cs => by
    intro h
    rw [show listHasTag tg (c :: cs)
        = (subtreeHasTag tg c || listHasTag tg cs) from rfl] at h
    simp only [Bool.or_eq_false_iff] at h
    show countTagT tg c + countTagL tg cs = 0
    rw [subtree_countTag_zero tg c h.1, list_countTag_zero tg cs h.2]

end

mutual

theorem insertAfterLock_count : (tg : String) → (newEl t : XTree) →
    (insertAfterLock newEl t).2 = true →
    countTagT tg (insertAfterLock newEl t).1
      = countTagT tg t + countTagT tg newEl
  | tg, newEl, .mk t a x l cs => by
    intro h
    show (if t == tg then 1 else 0)
        + countTagL tg (insertAfterLockL newEl cs).1
      = ((if t == tg then 1 else 0) + countTagL tg cs) + countTagT tg newEl
    have := insertAfterLockL_count tg newEl cs h
    omega

theorem insertAfterLockL_count : (tg : String) → (newEl : XTree) →
    (cs : List XTree) → (insertAfterLockL newEl cs).2 = true →
    countTagL tg (insertAfterLockL newEl cs).1
      = countTagL tg cs + countTagT tg newEl
  | tg, newEl, [], h => by simp [insertAfterLockL] at h
  | tg, newEl, c :: cs, h => by
    rw [show insertAfterLockL newEl (c :: cs)
        = (if c.tag == "lockWindows" then
            (c :: XTree.withTail newEl c.tail :: cs, true)
          else
            let rc := insertAfterLock newEl c
            if rc.2 then (rc.1 :: cs, true)
            else
              let rcs := insertAfterLockL newEl cs
              (c :: rcs.1, rcs.2)) from rfl] at h ⊢
    rw [show countTagL tg (c :: cs)
        = countTagT tg c + countTagL tg cs from rfl]
    cases htag : (c.tag == "lockWindows") with
    | true =>
      simp only [htag, if_true]
      show countTagT tg c + (countTagT tg (XTree.withTail newEl c.tail)
          + countTagL tg cs) = (countTagT tg c + countTagL tg cs) + _
      rw [countTagT_withTail]
      omega
    | false =>
      simp only [htag, Bool.false_eq_true, if_false] at h ⊢
      cases hrc : (insertAfterLock newEl c).2 with
      | true =>
        simp only [hrc, if_true]
        show countTagT tg (insertAfterLock newEl c).1 + countTagL tg cs = _
        rw [insertAfterLock_count tg newEl c hrc]
        omega
      | false =>
        simp only [hrc, Bool.false_eq_true, if_false] at h ⊢
        show countTagT tg c + countTagL tg (insertAfterLockL newEl cs).1
          = (countTagT tg c + countTagL tg cs) + countTagT tg newEl
        rw [insertAfterLockL_count tg newEl cs h]
        omega

end

theorem insertAfterLockL_cons_shape (newEl d : XTree) (ds : List XTree) :
    ∃ y ys, (insertAfterLockL newEl (d :: ds)).1 = y :: ys := by
  rw [show insertAfterLockL newEl (d :: ds)
      = (if d.tag == "lockWindows" then
          (d :: XTree.withTail newEl d.tail :: ds, true)
        else
          let rc := insertAfterLock newEl d
          if rc.2 then (rc.1 :: ds, true)
          else
            let rcs := insertAfterLockL newEl ds
            (d :: rcs.1, rcs.2)) from rfl]
  cases htag : (d.tag == "lockWindows") with
  | true =>
    refine ⟨d, XTree.withTail newEl d.tail :: ds, ?_⟩
    simp [htag]
  | false =>
    cases hrc : (insertAfterLock newEl d).2 with
    | true =>
      refine ⟨(insertAfterLock newEl d).1, ds, ?_⟩
      simp [htag, hrc]
    | false =>
      refine ⟨d, (insertAfterLockL newEl ds).1, ?_⟩
      simp [htag, hrc]

mutual

theorem insertAfterLock_adj : (p : XTree → XTree → Bool) → (newEl t : XTree) →
    (insertAfterLock newEl t).2 = true →
    (∀ lw : XTree, lw.tag = "lockWindows" →
      p lw (XTree.withTail newEl lw.tail) = true) →
    hasAdjPairT p (insertAfterLock newEl t).1 = true
  | p, newEl, .mk t a x l cs => by
    intro h hp
    show hasAdjPairL p (insertAfterLockL newEl cs).1 = true
    exact insertAfterLockL_adj p newEl cs h hp

theorem insertAfterLockL_adj : (p : XTree → XTree → Bool) → (newEl : XTree) →
    (cs : List XTree) → (insertAfterLockL newEl cs).2 = true →
    (∀ lw : XTree, lw.tag = "lockWindows" →
      p lw (XTree.withTail newEl lw.tail) = true) →
    hasAdjPairL p (insertAfterLockL newEl cs).1 = true
  | p, newEl, [], h, _ => by simp [insertAfterLockL] at h
  | p, newEl, c :: cs, h, hp => by
    rw [show insertAfterLockL newEl (c :: cs)
        = (if c.tag == "lockWindows" then
            (c :: XTree.withTail newEl c.tail :: cs, true)
          else
            let rc := insertAfterLock newEl c
            if rc.2 then (rc.1 :: cs, true)
            else
              let rcs := insertAfterLockL newEl cs
              (c :: rcs.1, rcs.2)) from rfl] at h ⊢
    cases htag : (c.tag == "lockWindows") with
    | true =>
      simp only [htag, if_true]
      have hpc := hp c (by simpa using htag)
      show (p c (XTree.withTail newEl c.tail) || hasAdjPairT p c
          || hasAdjPairL p (XTree.withTail newEl c.tail :: cs)) = true
      simp [hpc]
    | false =>
      simp only [htag, Bool.false_eq_true, if_false] at h ⊢
      cases hrc : (insertAfterLock newEl c).2 with
      | true =>
        simp only [hrc, if_true]
        have hc := insertAfterLock_adj p newEl c hrc hp
        cases cs with
        | nil =>
          show hasAdjPairT p (insertAfterLock newEl c).1 = true
          exact hc
        | cons d ds =>
          show (p (insertAfterLock newEl c).1 d
              || hasAdjPairT p (insertAfterLock newEl c).1
              || hasAdjPairL p (d :: ds)) = true
          simp [hc]
      | false =>
        simp only [hrc, Bool.false_eq_true, if_false] at h ⊢
        have hrec := insertAfterLockL_adj p newEl cs h hp
        cases cs with
        | nil => simp [insertAfterLockL] at h
        | cons d ds =>
          obtain ⟨y, ys, hy⟩ := insertAfterLockL_cons_shape newEl d ds
          rw [hy] at hrec ⊢
          show (p c y || hasAdjPairT p c || hasAdjPairL p (y :: ys)) = true
          simp [hrec]

end

end AddLangTag

/-- C6: `process_file` on a tree with no `Languages` descendant and some
`lockWindows` descendant (the root itself, which `.//` never matches,
being no `Languages` element either) succeeds and yields a tree with
exactly one `Languages` element; that element carries exactly the given
source/target/task attributes and sits immediately after a `lockWindows`
element in that element's parent, with the tail of the `lockWindows`
element copied onto it.  On a tree that already has a `Languages`
descendant the tree is left unchanged. -/
theorem add_lang_tag_process_file_spec (tree : Xml.XTree)
    (src_lang tgt_lang task : String) :
    (AddLangTag.hasDescTag "Languages" tree = true →
      AddLangTag.process_file tree src_lang tgt_lang task = Except.ok tree) ∧
    (AddLangTag.hasDescTag "Languages" tree = false →
      tree.tag ≠ "Languages" →
      AddLangTag.hasDescTag "lockWindows" tree = true →
      ∃ out, AddLangTag.process_file tree src_lang tgt_lang task
          = Except.ok out ∧
        AddLangTag.countTagT "Languages" out = 1 ∧
        AddLangTag.hasAdjPairT
          (fun lw lang => lw.tag == "lockWindows" &&
            Xml.beqT lang (AddLangTag.XTree.withTail
              (AddLangTag.languagesEl src_lang tgt_lang task) lw.tail))
          out = true) := by
  constructor
  · intro h
    simp [AddLangTag.process_file, h]
  · intro hnol hroot hlock
    have hflag : (AddLangTag.insertAfterLock
        (AddLangTag.languagesEl src_lang tgt_lang task) tree).2 = true := by
      rw [AddLangTag.insertAfterLock_flag]
      exact hlock
    refine ⟨(AddLangTag.insertAfterLock
        (AddLangTag.languagesEl src_lang tgt_lang task) tree).1, ?_, ?_, ?_⟩
    · simp [AddLangTag.process_file, hnol, hflag]
    · rw [AddLangTag.insertAfterLock_count "Languages" _ tree hflag]
      have h0 : AddLangTag.countTagT "Languages" tree = 0 := by
        apply AddLangTag.subtree_countTag_zero
        obtain ⟨t, a, x, l, cs⟩ := tree
        rw [show AddLangTag.subtreeHasTag "Languages" (.mk t a x l cs)
            = (t == "Languages" || AddLangTag.listHasTag "Languages" cs)
          from rfl]
        simp only [Xml.XTree.tag] at hroot
        simp only [AddLangTag.hasDescTag, Xml.XTree.children] at hnol
        simp [hroot, hnol]
      rw [h0]
      rfl
    · apply AddLangTag.insertAfterLock_adj _ _ tree hflag
      intro lw hlw
      simp [hlw, Xml.beqT_refl]

/-- Witness for C6 at a concrete Translog tree. -/
theorem add_lang_tag_process_file_spec_witness :
    (∃ out, AddLangTag.process_file
        (Xml.XTree.mk "Log" [] none none
          [Xml.XTree.mk "Settings" [] none none
            [Xml.XTree.mk "lockWindows" [] (some "1") (some "tl") []]])
        "en" "nl" "translating" = Except.ok out ∧
      AddLangTag.countTagT "Languages" out = 1 ∧
      AddLangTag.hasAdjPairT
        (fun lw lang => lw.tag == "lockWindows" &&
          Xml.beqT lang (AddLangTag.XTree.withTail
            (AddLangTag.languagesEl "en" "nl" "translating") lw.tail))
        out = true) ∧
    AddLangTag.process_file
        (Xml.XTree.mk "Log" [] none none
          [Xml.XTree.mk "Languages" [] none none []])
        "en" "nl" "translating"
      = Except.ok (Xml.XTree.mk "Log" [] none none
          [Xml.XTree.mk "Languages" [] none none []]) :=
  ⟨(add_lang_tag_process_file_spec
      (Xml.XTree.mk "Log" [] none none
        [Xml.XTree.mk "Settings" [] none none
          [Xml.XTree.mk "lockWindows" [] (some "1") (some "tl") []]])
      "en" "nl" "translating").2 rfl (by decide) rfl,
   (add_lang_tag_process_file_spec
      (Xml.XTree.mk "Log" [] none none
        [Xml.XTree.mk "Languages" [] none none []])
      "en" "nl" "translating").1 rfl⟩

/-- C7 counterexample: `process_file` of add_lang_tag.py applied to a
tree with no `lockWindows` element does not warn and continue; it
raises an uncaught `KeyError` (an `Except.error` outcome), which
terminates a batch run. -/
theorem add_lang_tag_missing_lock_counterexample :
    AddLangTag.process_file
        (Xml.XTree.mk "Log" [] none none
          [Xml.XTree.mk "Settings" [] none none []])
        "en" "nl" "translating"
      = Except.error
          "Your XML does not have a lockWindows element, which is required." :=
  rfl

/-- C7 (amended): not every failing input is handled by a console
warning: whenever the input of add_lang_tag's `process_file` has no
`Languages` descendant and no `lockWindows` descendant, the function
raises `KeyError` (modelled as `Except.error`), so the batch run over a
directory stops with an uncaught exception. -/
theorem add_lang_tag_raises_on_missing_lock (tree : Xml.XTree)
    (src_lang tgt_lang task : String)
    (hnol : AddLangTag.hasDescTag "Languages" tree = false)
    (hlock : AddLangTag.hasDescTag "lockWindows" tree = false) :
    AddLangTag.process_file tree src_lang tgt_lang task
      = Except.error
          "Your XML does not have a lockWindows element, which is required." := by
  have hflag : (AddLangTag.insertAfterLock
      (AddLangTag.languagesEl src_lang tgt_lang task) tree).2 = false := by
    rw [AddLangTag.insertAfterLock_flag]
    exact hlock
  simp [AddLangTag.process_file, hnol, hflag]

/-- Witness for the amended C7. -/
theorem add_lang_tag_raises_on_missing_lock_witness :
    AddLangTag.process_file
        (Xml.XTree.mk "Log" [] none none
          [Xml.XTree.mk "Project" [] none none []])
        "en" "nl" "copying"
      = Except.error
          "Your XML does not have a lockWindows element, which is required." :=
  add_lang_tag_raises_on_missing_lock
    (Xml.XTree.mk "Log" [] none none
      [Xml.XTree.mk "Project" [] none none []])
    "en" "nl" "copying" rfl rfl

namespace Xml

theorem dictInsert_cons_ne {α β : Type} [BEq α] (a : α) (b : β)
    (d : List (α × β)) (k : α) (v : β) (h : (a == k) = false) :
    dictInsert ((a, b) :: d) k v = (a, b) :: dictInsert d k v := by
  simp only [dictInsert, List.any_cons, h, Bool.false_or]
  cases hd : d.any (fun p => p.1 == k) with
  | true => simp [h]
  | false => simp

theorem dictInsert_cons_eq {α β : Type} [BEq α] (a : α) (b : β)
    (d : List (α × β)) (k : α) (v : β) (h : (a == k) = true) :
    dictInsert ((a, b) :: d) k v
      = (k, v) :: d.map (fun p => if p.1 == k then (k, v) else p) := by
  simp only [dictInsert, List.any_cons, h, Bool.true_or, if_true]
  simp [h]

theorem dictLookup_nil {α β : Type} [BEq α] (k : α) :
    dictLookup ([] : List (α × β)) k = none := rfl

theorem dictLookup_cons {α β : Type} [BEq α] (a : α) (b : β)
    (d : List (α × β)) (k : α) :
    dictLookup ((a, b) :: d) k
      = if a == k then some b else dictLookup d k := by
  simp only [dictLookup, List.find?_cons]
  cases h : (a == k) with
  | true => simp [h]
  | false => simp [h]

theorem dictLookup_map_ne {α β : Type} [BEq α] [LawfulBEq α]
    (d : List (α × β)) (k k2 : α) (v : β) (h : (k2 == k) = false) :
    dictLookup (d.map (fun p => if p.1 == k then (k, v) else p)) k2
      = dictLookup d k2 := by
  have hne : k2 ≠ k := by
    intro e
    subst e
    simp at h
  induction d with
  | nil => rfl
  | cons p d ih =>
    obtain ⟨a, b⟩ := p
    simp only [List.map_cons]
    by_cases hak : a = k
    · rw [if_pos (by simp [hak])]
      rw [dictLookup_cons, dictLookup_cons]
      have h1 : (k == k2) = false := by
        cases hq : (k == k2) with
        | false => rfl
        | true => exact absurd (eq_of_beq hq).symm hne
      have h2 : (a == k2) = false := by
        cases hq : (a == k2) with
        | false => rfl
        | true => exact absurd (hak.symm.trans (eq_of_beq hq)).symm hne
      simp [h1, h2, ih]
    · rw [if_neg (by simp [hak])]
      rw [dictLookup_cons, dictLookup_cons]
      by_cases hak2 : (a == k2) = true
      · simp [hak2]
      · simp only [Bool.not_eq_true] at hak2
        simp [hak2, ih]

theorem dictLookup_dictInsert_self {α β : Type} [BEq α] [LawfulBEq α]
    (d : List (α × β)) (k : α) (v : β) :
    dictLookup (dictInsert d k v) k = some v := by
  induction d with
  | nil => simp [dictInsert, dictLookup]
  | cons p d ih =>
    obtain ⟨a, b⟩ := p
    cases hak : (a == k) with
    | true =>
      rw [dictInsert_cons_eq a b d k v hak, dictLookup_cons]
      simp
    | false =>
      rw [dictInsert_cons_ne a b d k v hak, dictLookup_cons]
      simp [hak, ih]

theorem dictLookup_dictInsert_ne {α β : Type} [BEq α] [LawfulBEq α]
    (d : List (α × β)) (k k2 : α) (v : β) (h : (k2 == k) = false) :
    dictLookup (dictInsert d k v) k2 = dictLookup d k2 := by
  have hk2 : (k == k2) = false := by
    cases hx : (k == k2) with
    | false => rfl
    | true =>
      have := eq_of_beq hx
      subst this
      simp at h
  induction d with
  | nil =>
    simp [dictInsert, dictLookup_cons, dictLookup_nil, hk2]
  | cons p d ih =>
    obtain ⟨a, b⟩ := p
    cases hak : (a == k) with
    | true =>
      have ha : a = k := eq_of_beq hak
      subst ha
      rw [dictInsert_cons_eq a b d a v hak, dictLookup_cons, dictLookup_cons]
      simp only [hk2, if_false]
      exact dictLookup_map_ne d a k2 v h
    | false =>
      rw [dictInsert_cons_ne a b d k v hak, dictLookup_cons, dictLookup_cons]
      cases hx : (a == k2) with
      | true => simp [hx]
      | false => simp [hx, ih]

theorem XTree.attrib_set (t : XTree) (k v : String) :
    (t.set k v).attrib = dictInsert t.attrib k v := by
  obtain ⟨a, b, c, d, e⟩ := t
  rfl

theorem XTree.tag_set (t : XTree) (k v : String) :
    (t.set k v).tag = t.tag := by
  obtain ⟨a, b, c, d, e⟩ := t
  rfl

theorem XTree.get_set_self (t : XTree) (k v : String) :
    (t.set k v).get k = some v := by
  show dictLookup (t.set k v).attrib k = some v
  rw [XTree.attrib_set]
  exact dictLookup_dictInsert_self t.attrib k v

theorem XTree.get_set_ne (t : XTree) (k v k2 : String)
    (h : (k2 == k) = false) : (t.set k v).get k2 = t.get k2 := by
  show dictLookup (t.set k v).attrib k2 = dictLookup t.attrib k2
  rw [XTree.attrib_set]
  exact dictLookup_dictInsert_ne t.attrib k k2 v h

theorem removeFirst_cons (z : XTree) (zs : List XTree) (x : XTree) :
    removeFirst (z :: zs) x = if beqT z x then zs else z :: removeFirst zs x :=
  rfl

theorem removeFirst_mem {x y : XTree} {l : List XTree} (hx : x ∈ l)
    (hne : x ≠ y) : x ∈ removeFirst l y := by
  induction l with
  | nil => cases hx
  | cons z zs ih =>
    rw [removeFirst_cons]
    cases hz : beqT z y with
    | true =>
      simp only [if_pos rfl]
      have hzy : z = y := (beqT_iff z y).mp hz
      rcases List.mem_cons.mp hx with hxz | hxs
      · exact absurd (hxz.trans hzy) hne
      · exact hxs
    | false =>
      simp only [Bool.false_eq_true, if_false]
      rcases List.mem_cons.mp hx with hxz | hxs
      · exact hxz ▸ List.mem_cons_self z _
      · exact List.mem_cons_of_mem z (ih hxs)

theorem perm_removeFirst {x : XTree} {l : List XTree} (hx : x ∈ l) :
    l.Perm (x :: removeFirst l x) := by
  induction l with
  | nil => cases hx
  | cons z zs ih =>
    rw [removeFirst_cons]
    cases hz : beqT z x with
    | true =>
      have hzx : z = x := (beqT_iff z x).mp hz
      subst hzx
      simp only [if_pos rfl]
      exact List.Perm.refl _
    | false =>
      simp only [Bool.false_eq_true, if_false]
      have hzx : z ≠ x := fun h => by
        rw [h] at hz
        rw [beqT_refl] at hz
        cases hz
      have hxs : x ∈ zs := by
        rcases List.mem_cons.mp hx with h | h
        · exact absurd h.symm hzx
        · exact h
      exact List.Perm.trans ((ih hxs).cons z)
        (List.Perm.swap x z (removeFirst zs x))

theorem filter_removeFirst (p : XTree → Bool) (x : XTree) (hp : p x = true)
    (l : List XTree) :
    (removeFirst l x).filter p = removeFirst (l.filter p) x := by
  induction l with
  | nil => rfl
  | cons z zs ih =>
    rw [removeFirst_cons]
    cases hz : beqT z x with
    | true =>
      have hzx : z = x := (beqT_iff z x).mp hz
      subst hzx
      simp [List.filter_cons, hp, removeFirst_cons, beqT_refl]
    | false =>
      cases hpz : p z with
      | true => simp [List.filter_cons, hpz, hz, removeFirst_cons, ih]
      | false => simp [List.filter_cons, hpz, hz, ih]

theorem filter_not_removeFirst (p : XTree → Bool) (x : XTree)
    (hp : p x = true) (l : List XTree) :
    (removeFirst l x).filter (fun y => !p y)
      = l.filter (fun y => !p y) := by
  induction l with
  | nil => rfl
  | cons z zs ih =>
    rw [removeFirst_cons]
    cases hz : beqT z x with
    | true =>
      have hzx : z = x := (beqT_iff z x).mp hz
      subst hzx
      simp [List.filter_cons, hp]
    | false =>
      cases hpz : p z with
      | true => simp [List.filter_cons, hpz, ih]
      | false => simp [List.filter_cons, hpz, ih]

end Xml

namespace Xml

theorem dictLookup_mem {α β : Type} [BEq α] (d : List (α × β)) (k : α)
    (v : β) (h : dictLookup d k = some v) : ∃ kk, (kk, v) ∈ d := by
  induction d with
  | nil => simp [dictLookup] at h
  | cons p d ih =>
    obtain ⟨a, b⟩ := p
    rw [dictLookup_cons] at h
    by_cases hak : (a == k) = true
    · rw [if_pos hak] at h
      exact ⟨a, by simp [← Option.some_inj.mp h]⟩
    · rw [if_neg hak] at h
      obtain ⟨kk, hkk⟩ := ih h
      exact ⟨kk, List.mem_cons_of_mem _ hkk⟩

end Xml

namespace AtagFix

open Xml

/-- The query selector `isAlignOut` only matches `align` elements. -/
theorem isAlignOut_tag {sid : String} {el : XTree}
    (h : isAlignOut sid el = true) : (el.tag == "align") = true := by
  simp only [isAlignOut, Bool.and_eq_true] at h
  exact h.1

theorem rewriteEl_eq_some {keySrc keyTgt : String}
    {tgtMap : List (Option String × Option String)} {manIdx : Option String}
    {el a : XTree}
    (h : rewriteEl keySrc keyTgt tgtMap manIdx el = some a) :
    ∃ inval man_tgt, el.get "in" = some inval ∧
      dictLookup tgtMap (some (inval.drop 1)) = some man_tgt ∧
      a = (el.set "out" (keySrc ++ fstr manIdx)).set "in"
        (keyTgt ++ fstr man_tgt) := by
  simp only [rewriteEl] at h
  split at h
  · cases h
  · rename_i inval hin
    split at h
    · cases h
    · rename_i man_tgt hlk
      refine ⟨inval, man_tgt, ?_, hlk, (Option.some_inj.mp h).symm⟩
      rw [← hin]
      exact (XTree.get_set_ne el "out" (keySrc ++ fstr manIdx) "in" rfl).symm

theorem rewriteEl_some_of {keySrc keyTgt : String}
    {tgtMap : List (Option String × Option String)} {manIdx : Option String}
    {el : XTree} {inval : String} {man_tgt : Option String}
    (hin : el.get "in" = some inval)
    (hlk : dictLookup tgtMap (some (inval.drop 1)) = some man_tgt) :
    rewriteEl keySrc keyTgt tgtMap manIdx el
      = some ((el.set "out" (keySrc ++ fstr manIdx)).set "in"
          (keyTgt ++ fstr man_tgt)) := by
  have hge : (el.set "out" (keySrc ++ fstr manIdx)).get "in" = some inval := by
    rw [XTree.get_set_ne el "out" (keySrc ++ fstr manIdx) "in" rfl]
    exact hin
  simp only [rewriteEl]
  rw [hge]
  show (match dictLookup tgtMap (some (inval.drop 1)) with
    | none => none
    | some man_tgt => some ((el.set "out" (keySrc ++ fstr manIdx)).set "in"
        (keyTgt ++ fstr man_tgt))) = _
  rw [hlk]

theorem processMatches_cons (keySrc keyTgt : String)
    (tgtMap : List (Option String × Option String)) (manIdx : Option String)
    (m : XTree) (rest tree valid : List XTree) :
    processMatches keySrc keyTgt tgtMap manIdx (m :: rest) tree valid
      = (match (m.set "out" (keySrc ++ fstr manIdx)).get "in" with
        | none => LoopRes.exn
        | some inval =>
          match dictLookup tgtMap (some (inval.drop 1)) with
          | none => LoopRes.errorReturn
          | some man_tgt =>
            processMatches keySrc keyTgt tgtMap manIdx rest
              (removeFirst tree m)
              (valid ++ [(m.set "out" (keySrc ++ fstr manIdx)).set "in"
                (keyTgt ++ fstr man_tgt)])) := rfl

theorem processMatches_cont_spec (keySrc keyTgt : String)
    (tgtMap : List (Option String × Option String)) (manIdx : Option String)
    (p : XTree → Bool) :
    ∀ (matched tree valid tree' valid' : List XTree),
    matched = tree.filter p →
    processMatches keySrc keyTgt tgtMap manIdx matched tree valid
      = .cont tree' valid' →
    tree' = tree.filter (fun x => !p x) ∧
    ∃ app, valid' = valid ++ app ∧
      List.Forall₂
        (fun a o => rewriteEl keySrc keyTgt tgtMap manIdx o = some a)
        app matched := by
  intro matched
  induction matched with
  | nil =>
    intro tree valid tree' valid' hm hrun
    rw [show processMatches keySrc keyTgt tgtMap manIdx [] tree valid
        = .cont tree valid from rfl] at hrun
    cases hrun
    refine ⟨?_, [], by simp, List.Forall₂.nil⟩
    have hnone : ∀ a ∈ tree, ¬ p a = true :=
      List.filter_eq_nil_iff.mp hm.symm
    rw [List.filter_eq_self.mpr]
    intro a ha
    simp [hnone a ha]
  | cons m rest ih =>
    intro tree valid tree' valid' hm hrun
    rw [processMatches_cons] at hrun
    have hpm : p m = true := by
      have : m ∈ tree.filter p := by
        rw [← hm]
        exact List.mem_cons_self m rest
      exact (List.mem_filter.mp this).2
    cases hin : (m.set "out" (keySrc ++ fstr manIdx)).get "in" with
    | none => rw [hin] at hrun; cases hrun
    | some inval =>
      rw [hin] at hrun
      replace hrun : (match dictLookup tgtMap (some (inval.drop 1)) with
          | none => LoopRes.errorReturn
          | some man_tgt =>
            processMatches keySrc keyTgt tgtMap manIdx rest
              (removeFirst tree m)
              (valid ++ [(m.set "out" (keySrc ++ fstr manIdx)).set "in"
                (keyTgt ++ fstr man_tgt)]))
          = LoopRes.cont tree' valid' := hrun
      cases hlk : dictLookup tgtMap (some (inval.drop 1)) with
      | none => rw [hlk] at hrun; cases hrun
      | some man_tgt =>
        rw [hlk] at hrun
        have hrest : rest = (removeFirst tree m).filter p := by
          rw [filter_removeFirst p m hpm tree, ← hm, removeFirst_cons]
          simp [beqT_refl]
        obtain ⟨ht, app, happ, hall⟩ :=
          ih (removeFirst tree m) _ tree' valid' hrest hrun
        refine ⟨?_, (m.set "out" (keySrc ++ fstr manIdx)).set "in"
            (keyTgt ++ fstr man_tgt) :: app, ?_, ?_⟩
        · rw [ht, filter_not_removeFirst p m hpm tree]
        · rw [happ]
          simp
        · refine List.Forall₂.cons ?_ hall
          apply rewriteEl_some_of
          · rw [← hin]
            exact (XTree.get_set_ne m "out" (keySrc ++ fstr manIdx) "in"
              rfl).symm
          · exact hlk

end AtagFix

namespace AtagFix

open Xml

theorem forall₂_mem_right {α β : Type} {r : α → β → Prop}
    {as : List α} {bs : List β} (h : List.Forall₂ r as bs) {b : β}
    (hb : b ∈ bs) : ∃ a ∈ as, r a b := by
  induction h with
  | nil => cases hb
  | @cons a0 b0 as0 bs0 hr hrest ih =>
    rcases List.mem_cons.mp hb with rfl | hb2
    · exact ⟨a0, List.mem_cons_self _ _, hr⟩
    · obtain ⟨a, ha, hra⟩ := ih hb2
      exact ⟨a, List.mem_cons_of_mem _ ha, hra⟩

theorem forall₂_mem_left {α β : Type} {r : α → β → Prop}
    {as : List α} {bs : List β} (h : List.Forall₂ r as bs) {a : α}
    (ha : a ∈ as) : ∃ b ∈ bs, r a b := by
  induction h with
  | nil => cases ha
  | @cons a0 b0 as0 bs0 hr hrest ih =>
    rcases List.mem_cons.mp ha with rfl | ha2
    · exact ⟨b0, List.mem_cons_self _ _, hr⟩
    · obtain ⟨b, hb, hrb⟩ := ih ha2
      exact ⟨b, List.mem_cons_of_mem _ hb, hrb⟩

theorem align_split (sid : String) (tree : List XTree) :
    (tree.filter (fun c => c.tag == "align")).Perm
      ((tree.filter (isAlignOut sid))
        ++ ((tree.filter (fun x => !(isAlignOut sid x))).filter
            (fun c => c.tag == "align"))) := by
  have h1 := List.filter_append_perm (isAlignOut sid)
      (tree.filter (fun c => c.tag == "align"))
  have h2 : (tree.filter (fun c => c.tag == "align")).filter (isAlignOut sid)
      = tree.filter (isAlignOut sid) := by
    rw [List.filter_filter]
    apply List.filter_congr
    intro a _
    cases hp : isAlignOut sid a with
    | true => simp [isAlignOut_tag hp]
    | false => simp
  have h3 : (tree.filter (fun c => c.tag == "align")).filter
        (fun x => !(isAlignOut sid x))
      = (tree.filter (fun x => !(isAlignOut sid x))).filter
          (fun c => c.tag == "align") := by
    rw [List.filter_filter, List.filter_filter]
    apply List.filter_congr
    intro a _
    exact Bool.and_comm _ _
  have h4 := h1.symm
  rw [h2, h3] at h4
  exact h4

theorem processToken_cont_spec (keySrc keyTgt : String)
    (tgtMap : List (Option String × Option String))
    (origIdx manIdx : Option String)
    (tree valid tree' valid' : List XTree)
    (hrun : processToken keySrc keyTgt tgtMap origIdx manIdx tree valid
      = .cont tree' valid') :
    tree' = tree.filter (fun x => !(isAlignOut (keySrc ++ fstr origIdx) x)) ∧
    ∃ app, valid' = valid ++ app ∧
      List.Forall₂
        (fun a o => rewriteEl keySrc keyTgt tgtMap manIdx o = some a)
        app (tree.filter (isAlignOut (keySrc ++ fstr origIdx))) :=
  processMatches_cont_spec keySrc keyTgt tgtMap manIdx
    (isAlignOut (keySrc ++ fstr origIdx)) _ tree valid tree' valid' rfl hrun

theorem processTokens_cons (keySrc keyTgt : String)
    (tgtMap : List (Option String × Option String))
    (o m : Option String) (rest : List (Option String × Option String))
    (tree valid : List XTree) :
    processTokens keySrc keyTgt tgtMap ((o, m) :: rest) tree valid
      = (match processToken keySrc keyTgt tgtMap o m tree valid with
        | LoopRes.cont tree1 valid1 =>
          processTokens keySrc keyTgt tgtMap rest tree1 valid1
        | r => r) := rfl

theorem processTokens_cont_spec (keySrc keyTgt : String)
    (tgtMap : List (Option String × Option String)) :
    ∀ (entries : List (Option String × Option String))
      (tree valid tree' valid' : List XTree),
    processTokens keySrc keyTgt tgtMap entries tree valid
      = .cont tree' valid' →
    ∃ app origs,
      valid' = valid ++ app ∧
      (tree.filter (fun c => c.tag == "align")).Perm
        (origs ++ tree'.filter (fun c => c.tag == "align")) ∧
      (∀ og ∈ origs, (og.tag == "align") = true) ∧
      List.Forall₂
        (fun a og => ∃ m, (∃ oo, (oo, m) ∈ entries) ∧
          rewriteEl keySrc keyTgt tgtMap m og = some a)
        app origs := by
  intro entries
  induction entries with
  | nil =>
    intro tree valid tree' valid' hrun
    rw [show processTokens keySrc keyTgt tgtMap [] tree valid
        = .cont tree valid from rfl] at hrun
    cases hrun
    exact ⟨[], [], by simp, by simp, by simp, List.Forall₂.nil⟩
  | cons e rest ih =>
    intro tree valid tree' valid' hrun
    obtain ⟨o, m⟩ := e
    rw [processTokens_cons] at hrun
    cases hpt : processToken keySrc keyTgt tgtMap o m tree valid with
    | errorReturn =>
      rw [hpt] at hrun
      exact absurd hrun (by simp)
    | exn =>
      rw [hpt] at hrun
      exact absurd hrun (by simp)
    | cont tree1 valid1 =>
      rw [hpt] at hrun
      replace hrun : processTokens keySrc keyTgt tgtMap rest tree1 valid1
          = .cont tree' valid' := hrun
      obtain ⟨ht1, app1, happ1, hf1⟩ :=
        processToken_cont_spec keySrc keyTgt tgtMap o m tree valid
          tree1 valid1 hpt
      obtain ⟨app2, origs2, happ2, hperm2, htags2, hf2⟩ :=
        ih tree1 valid1 tree' valid' hrun
      refine ⟨app1 ++ app2,
        tree.filter (isAlignOut (keySrc ++ fstr o)) ++ origs2, ?_, ?_, ?_, ?_⟩
      · rw [happ2, happ1, List.append_assoc]
      · have hsplit := align_split (keySrc ++ fstr o) tree
        rw [← ht1] at hsplit
        refine hsplit.trans ?_
        rw [List.append_assoc]
        exact hperm2.append_left _
      · intro og hog
        rcases List.mem_append.mp hog with hleft | hright
        · exact isAlignOut_tag (List.mem_filter.mp hleft).2
        · exact htags2 og hright
      · refine List.rel_append (hf1.imp ?_) (hf2.imp ?_)
        · intro a og hr
          exact ⟨m, ⟨o, List.mem_cons_self _ _⟩, hr⟩
        · intro a og hr
          obtain ⟨m2, ⟨oo, hmem⟩, hrw⟩ := hr
          exact ⟨m2, ⟨oo, List.mem_cons_of_mem _ hmem⟩, hrw⟩

end AtagFix

namespace AtagFix

open Xml

theorem processSegs_cons (keySrc keyTgt : String) (sg : SegTrees)
    (rest : List SegTrees) (tree valid : List XTree) :
    processSegs keySrc keyTgt (sg :: rest) tree valid
      = (match processTokens keySrc keyTgt
            (orig_man_mapping sg.tgtOrig sg.tgtMan)
            (orig_man_mapping sg.srcOrig sg.srcMan) tree valid with
        | LoopRes.cont tree1 valid1 =>
          processSegs keySrc keyTgt rest tree1 valid1
        | r => r) := rfl

theorem processSegs_cont_spec (keySrc keyTgt : String) :
    ∀ (segs : List SegTrees) (tree valid tree' valid' : List XTree),
    processSegs keySrc keyTgt segs tree valid = .cont tree' valid' →
    ∃ app origs,
      valid' = valid ++ app ∧
      (tree.filter (fun c => c.tag == "align")).Perm
        (origs ++ tree'.filter (fun c => c.tag == "align")) ∧
      (∀ og ∈ origs, (og.tag == "align") = true) ∧
      List.Forall₂
        (fun a og => ∃ sg ∈ segs, ∃ m,
          (∃ oo, (oo, m) ∈ orig_man_mapping sg.srcOrig sg.srcMan) ∧
          rewriteEl keySrc keyTgt (orig_man_mapping sg.tgtOrig sg.tgtMan)
            m og = some a)
        app origs := by
  intro segs
  induction segs with
  | nil =>
    intro tree valid tree' valid' hrun
    rw [show processSegs keySrc keyTgt [] tree valid
        = .cont tree valid from rfl] at hrun
    cases hrun
    exact ⟨[], [], by simp, by simp, by simp, List.Forall₂.nil⟩
  | cons sg rest ih =>
    intro tree valid tree' valid' hrun
    rw [processSegs_cons] at hrun
    cases hpt : processTokens keySrc keyTgt
        (orig_man_mapping sg.tgtOrig sg.tgtMan)
        (orig_man_mapping sg.srcOrig sg.srcMan) tree valid with
    | errorReturn =>
      rw [hpt] at hrun
      exact absurd hrun (by simp)
    | exn =>
      rw [hpt] at hrun
      exact absurd hrun (by simp)
    | cont tree1 valid1 =>
      rw [hpt] at hrun
      replace hrun : processSegs keySrc keyTgt rest tree1 valid1
          = .cont tree' valid' := hrun
      obtain ⟨app1, origs1, happ1, hperm1, htags1, hf1⟩ :=
        processTokens_cont_spec keySrc keyTgt _ _ tree valid tree1 valid1 hpt
      obtain ⟨app2, origs2, happ2, hperm2, htags2, hf2⟩ :=
        ih tree1 valid1 tree' valid' hrun
      refine ⟨app1 ++ app2, origs1 ++ origs2, ?_, ?_, ?_, ?_⟩
      · rw [happ2, happ1, List.append_assoc]
      · refine hperm1.trans ?_
        rw [List.append_assoc]
        exact hperm2.append_left _
      · intro og hog
        rcases List.mem_append.mp hog with hleft | hright
        · exact htags1 og hleft
        · exact htags2 og hright
      · refine List.rel_append (hf1.imp ?_) (hf2.imp ?_)
        · intro a og hr
          obtain ⟨m, hoo, hrw⟩ := hr
          exact ⟨sg, List.mem_cons_self _ _, m, hoo, hrw⟩
        · intro a og hr
          obtain ⟨sg2, hsg2, m, hoo, hrw⟩ := hr
          exact ⟨sg2, List.mem_cons_of_mem _ hsg2, m, hoo, hrw⟩

theorem insertFront_cons {α : Type} (key : α → Int × Int) (x y : α)
    (ys : List α) :
    insertFront key x (y :: ys)
      = if lexLt (key y) (key x) then y :: insertFront key x ys
        else x :: y :: ys := rfl

theorem insertFront_perm {α : Type} (key : α → Int × Int) (x : α)
    (l : List α) : (insertFront key x l).Perm (x :: l) := by
  induction l with
  | nil => exact List.Perm.refl _
  | cons y ys ih =>
    rw [insertFront_cons]
    cases h : lexLt (key y) (key x) with
    | true =>
      simp only [if_true]
      exact (ih.cons y).trans (List.Perm.swap x y ys)
    | false =>
      simp only [Bool.false_eq_true, if_false]
      exact List.Perm.refl _

theorem insSort_perm {α : Type} (key : α → Int × Int) (l : List α) :
    (insSort key l).Perm l := by
  induction l with
  | nil => exact List.Perm.refl _
  | cons x xs ih =>
    show (insertFront key x (insSort key xs)).Perm (x :: xs)
    exact (insertFront_perm key x _).trans (ih.cons x)

theorem insSort_split {α : Type} (key : α → Int × Int) (kn ka : List α)
    (hn : ∀ x ∈ kn, key x = ((0 : Int), (0 : Int)))
    (ha : ∀ x ∈ ka, lexLt (key x) ((0 : Int), (0 : Int)) = false) :
    insSort key (kn ++ ka) = kn ++ insSort key ka := by
  induction kn with
  | nil => rfl
  | cons n kn ih =>
    have hkeyn : key n = ((0 : Int), (0 : Int)) :=
      hn n (List.mem_cons_self _ _)
    show insertFront key n (insSort key (kn ++ ka))
      = n :: (kn ++ insSort key ka)
    rw [ih (fun x hx => hn x (List.mem_cons_of_mem _ hx))]
    cases hkn : kn ++ insSort key ka with
    | nil => rfl
    | cons y ys =>
      have hymem : y ∈ kn ++ insSort key ka := by
        rw [hkn]
        exact List.mem_cons_self _ _
      have hy : lexLt (key y) (key n) = false := by
        rw [hkeyn]
        rcases List.mem_append.mp hymem with hyn | hya
        · rw [hn y (List.mem_cons_of_mem _ hyn)]
          decide
        · exact ha y ((insSort_perm key ka).mem_iff.mp hya)
      rw [insertFront_cons, hy]
      simp

theorem mapM_some_of_forall {α β : Type} (f : α → Option β) :
    ∀ (xs : List α), (∀ x ∈ xs, (f x).isSome) →
    ∃ ys, xs.mapM f = some ys ∧
      List.Forall₂ (fun y x => f x = some y) ys xs := by
  intro xs
  induction xs with
  | nil => exact fun _ => ⟨[], rfl, List.Forall₂.nil⟩
  | cons x xs ih =>
    intro h
    have hx := h x (List.mem_cons_self _ _)
    obtain ⟨y, hy⟩ := Option.isSome_iff_exists.mp hx
    obtain ⟨ys, hys, hf⟩ := ih (fun z hz => h z (List.mem_cons_of_mem _ hz))
    refine ⟨y :: ys, ?_, List.Forall₂.cons hy hf⟩
    rw [List.mapM_cons, hy, hys]
    rfl

theorem forall₂_of_mapM_eq_some {α β : Type} (f : α → Option β) :
    ∀ (xs : List α) (ys : List β), xs.mapM f = some ys →
    List.Forall₂ (fun y x => f x = some y) ys xs := by
  intro xs
  induction xs with
  | nil =>
    intro ys h
    rw [show ([] : List α).mapM f = some [] from rfl] at h
    cases h
    exact List.Forall₂.nil
  | cons x xs ih =>
    intro ys h
    rw [List.mapM_cons] at h
    cases hx : f x with
    | none => rw [hx] at h; simp at h
    | some y =>
      rw [hx] at h
      cases hxs : xs.mapM f with
      | none => rw [hxs] at h; simp at h
      | some ys0 =>
        rw [hxs] at h
        have h2 : y :: ys0 = ys := by simpa using h
        rw [← h2]
        exact List.Forall₂.cons hx (ih ys0 hxs)

theorem map_snd_eq_of_forall₂ (cs : List XTree)
    (ys : List ((Int × Int) × XTree))
    (h : List.Forall₂
      (fun y c => (sortKey c).map (fun k => (k, c)) = some y) ys cs) :
    ys.map Prod.snd = cs := by
  induction h with
  | nil => rfl
  | @cons y c ys0 cs0 hr hrest ih =>
    have hyc : y.2 = c := by
      cases hk : sortKey c with
      | none => rw [hk] at hr; cases hr
      | some k =>
        rw [hk] at hr
        have hr2 : (k, c) = y := by simpa using hr
        rw [← hr2]
    simp [List.map_cons, hyc, ih]

theorem sortChildren_eq_some {cs out : List XTree}
    (h : sortChildren cs = some out) :
    ∃ keyed, cs.mapM (fun c => (sortKey c).map (fun k => (k, c)))
        = some keyed ∧
      out = (insSort Prod.fst keyed).map Prod.snd := by
  rw [show sortChildren cs
      = (match cs.mapM (fun c => (sortKey c).map (fun k => (k, c))) with
        | none => none
        | some keyed => some ((insSort Prod.fst keyed).map Prod.snd))
    from rfl] at h
  cases hm : cs.mapM (fun c => (sortKey c).map (fun k => (k, c))) with
  | none => rw [hm] at h; cases h
  | some keyed =>
    rw [hm] at h
    exact ⟨keyed, rfl, (Option.some_inj.mp h).symm⟩

theorem sortChildren_perm {cs out : List XTree}
    (h : sortChildren cs = some out) : out.Perm cs := by
  obtain ⟨keyed, hm, hout⟩ := sortChildren_eq_some h
  have hsnd : keyed.map Prod.snd = cs :=
    map_snd_eq_of_forall₂ cs keyed (forall₂_of_mapM_eq_some _ cs keyed hm)
  rw [hout, ← hsnd]
  exact (insSort_perm Prod.fst keyed).map Prod.snd

theorem update_atag_eq (keySrc keyTgt : String) (segs : List SegTrees)
    (rootChildren : List XTree) :
    update_atag keySrc keyTgt segs rootChildren
      = (match processSegs keySrc keyTgt segs rootChildren
            (validInit rootChildren) with
        | LoopRes.errorReturn => UpdateOutcome.errorSkipped
        | LoopRes.exn => UpdateOutcome.exn
        | LoopRes.cont _ valid =>
          match sortChildren valid with
          | none => UpdateOutcome.exn
          | some sortedChildren => UpdateOutcome.written sortedChildren) := rfl

end AtagFix

/-- C5: one run of `update_atag` is single-pass: when it writes the
file, the `align` elements it appended to the output are the rewrites
(an `out` and an `in` assignment) of pairwise-distinct occurrences of
original `align` children (`origs`, a sub-permutation of the input
`align` elements), each of which was also removed from the queried tree
(its remaining `align` children are the input ones minus `origs`), so no
element is ever remapped twice. -/
theorem update_atag_single_pass (keySrc keyTgt : String)
    (segs : List AtagFix.SegTrees) (rootChildren out : List Xml.XTree)
    (hrun : AtagFix.update_atag keySrc keyTgt segs rootChildren
      = AtagFix.UpdateOutcome.written out) :
    ∃ tree1 app origs,
      AtagFix.processSegs keySrc keyTgt segs rootChildren
          (AtagFix.validInit rootChildren)
        = AtagFix.LoopRes.cont tree1 (AtagFix.validInit rootChildren ++ app) ∧
      (rootChildren.filter (fun c => c.tag == "align")).Perm
        (origs ++ tree1.filter (fun c => c.tag == "align")) ∧
      List.Subperm origs
        (rootChildren.filter (fun c => c.tag == "align")) ∧
      List.Forall₂
        (fun a og => ∃ s1 s2, a = (og.set "out" s1).set "in" s2)
        app origs := by
  rw [AtagFix.update_atag_eq] at hrun
  cases hps : AtagFix.processSegs keySrc keyTgt segs rootChildren
      (AtagFix.validInit rootChildren) with
  | errorReturn => rw [hps] at hrun; cases hrun
  | exn => rw [hps] at hrun; cases hrun
  | cont tree1 valid1 =>
    obtain ⟨app, origs, happ, hperm, htags, hf⟩ :=
      AtagFix.processSegs_cont_spec keySrc keyTgt segs rootChildren
        (AtagFix.validInit rootChildren) tree1 valid1 hps
    refine ⟨tree1, app, origs, ?_, hperm, ?_, ?_⟩
    · rw [← happ]
    · exact ((List.sublist_append_left origs _).subperm).trans
        hperm.symm.subperm
    · refine hf.imp ?_
      intro a og hr
      obtain ⟨sg, _, m, _, hrw⟩ := hr
      obtain ⟨inval, mt, _, _, hshape⟩ := AtagFix.rewriteEl_eq_some hrw
      exact ⟨keySrc ++ AtagFix.fstr m, keyTgt ++ AtagFix.fstr mt, hshape⟩

/-- Witness for C5 at a concrete one-segment atag file. -/
theorem update_atag_single_pass_witness :
    ∃ tree1 app origs,
      AtagFix.processSegs "a" "b"
          [⟨Xml.XTree.mk "tree" [] none none
              [Xml.XTree.mk "W" [("id", "1")] (some "x") none [],
               Xml.XTree.mk "W" [("id", "2")] (some "y") none []],
            Xml.XTree.mk "tree" [] none none
              [Xml.XTree.mk "W" [("id", "2")] (some "x") none [],
               Xml.XTree.mk "W" [("id", "3")] (some "y") none []],
            Xml.XTree.mk "tree" [] none none
              [Xml.XTree.mk "W" [("id", "3")] (some "u") none []],
            Xml.XTree.mk "tree" [] none none
              [Xml.XTree.mk "W" [("id", "5")] (some "u") none []]⟩]
          [Xml.XTree.mk "salign" [("src", "1"), ("tgt", "1")] none none [],
           Xml.XTree.mk "align" [("in", "b3"), ("out", "a1")] none none [],
           Xml.XTree.mk "align" [("in", "b9"), ("out", "a9")] none none []]
          (AtagFix.validInit
            [Xml.XTree.mk "salign" [("src", "1"), ("tgt", "1")] none none [],
             Xml.XTree.mk "align" [("in", "b3"), ("out", "a1")] none none [],
             Xml.XTree.mk "align" [("in", "b9"), ("out", "a9")] none none []])
        = AtagFix.LoopRes.cont tree1
            (AtagFix.validInit
              [Xml.XTree.mk "salign" [("src", "1"), ("tgt", "1")]
                 none none [],
               Xml.XTree.mk "align" [("in", "b3"), ("out", "a1")]
                 none none [],
               Xml.XTree.mk "align" [("in", "b9"), ("out", "a9")]
                 none none []] ++ app) ∧
      ([Xml.XTree.mk "salign" [("src", "1"), ("tgt", "1")] none none [],
        Xml.XTree.mk "align" [("in", "b3"), ("out", "a1")] none none [],
        Xml.XTree.mk "align" [("in", "b9"), ("out", "a9")]
          none none []].filter (fun c => c.tag == "align")).Perm
        (origs ++ tree1.filter (fun c => c.tag == "align")) ∧
      List.Subperm origs
        ([Xml.XTree.mk "salign" [("src", "1"), ("tgt", "1")] none none [],
          Xml.XTree.mk "align" [("in", "b3"), ("out", "a1")] none none [],
          Xml.XTree.mk "align" [("in", "b9"), ("out", "a9")]
            none none []].filter (fun c => c.tag == "align")) ∧
      List.Forall₂
        (fun a og => ∃ s1 s2, a = (og.set "out" s1).set "in" s2)
        app origs :=
  update_atag_single_pass "a" "b" _ _
    [Xml.XTree.mk "salign" [("src", "1"), ("tgt", "1")] none none [],
     Xml.XTree.mk "align" [("in", "b5"), ("out", "a2")] none none []]
    rfl

namespace AtagFix

open Xml

theorem mem_dictInsert {α β : Type} [BEq α] (d : List (α × β)) (k : α)
    (v : β) (e : α × β) (he : e ∈ dictInsert d k v) : e ∈ d ∨ e = (k, v) := by
  simp only [dictInsert] at he
  by_cases h : d.any (fun p => p.1 == k) = true
  · rw [if_pos h] at he
    obtain ⟨p, hp, hpe⟩ := List.mem_map.mp he
    by_cases hpk : (p.1 == k) = true
    · right
      rw [if_pos hpk] at hpe
      exact hpe.symm
    · left
      rw [if_neg hpk] at hpe
      rw [← hpe]
      exact hp
  · rw [if_neg h] at he
    rcases List.mem_append.mp he with h1 | h2
    · exact Or.inl h1
    · right
      simpa using h2

theorem mem_foldl_dictInsert {α β γ : Type} [BEq α] (f : γ → α)
    (g : γ → β) :
    ∀ (ps : List γ) (d : List (α × β)) (e : α × β),
    e ∈ ps.foldl (fun acc p => dictInsert acc (f p) (g p)) d →
    e ∈ d ∨ ∃ p ∈ ps, e = (f p, g p) := by
  intro ps
  induction ps with
  | nil => exact fun d e he => Or.inl he
  | cons p ps ih =>
    intro d e he
    rw [List.foldl_cons] at he
    rcases ih (dictInsert d (f p) (g p)) e he with hd | ⟨q, hq, heq⟩
    · rcases mem_dictInsert d (f p) (g p) e hd with h1 | h2
      · exact Or.inl h1
      · exact Or.inr ⟨p, List.mem_cons_self _ _, h2⟩
    · exact Or.inr ⟨q, List.mem_cons_of_mem _ hq, heq⟩

theorem mem_orig_man_mapping {orig man : XTree} {o m : Option String}
    (h : (o, m) ∈ orig_man_mapping orig man) :
    ∃ p ∈ orig.children.zip man.children,
      o = p.1.get "id" ∧ m = p.2.get "id" := by
  have h2 := mem_foldl_dictInsert
    (fun p : XTree × XTree => p.1.get "id")
    (fun p : XTree × XTree => p.2.get "id")
    (orig.children.zip man.children) [] (o, m) h
  rcases h2 with h0 | ⟨p, hp, he⟩
  · cases h0
  · exact ⟨p, hp, congrArg Prod.fst he, congrArg Prod.snd he⟩

theorem XTree.getD_of_get_some (t : XTree) (k d v : String)
    (h : t.get k = some v) : t.getD k d = v := by
  simp [Xml.XTree.getD, h]

theorem XTree.getD_of_get_none (t : XTree) (k d : String)
    (h : t.get k = none) : t.getD k d = d := by
  simp [Xml.XTree.getD, h]

theorem sortKey_unfold (c : XTree) :
    sortKey c
      = (match parseInt ((c.getD "in" "b0").drop 1),
            parseInt ((c.getD "out" "a0").drop 1) with
        | some i, some o => some (i, o)
        | _, _ => none) := rfl

theorem sortKey_no_inout (c : XTree) (hin : c.get "in" = none)
    (hout : c.get "out" = none) :
    sortKey c = some ((0 : Int), (0 : Int)) := by
  rw [sortKey_unfold,
    XTree.getD_of_get_none c "in" "b0" hin,
    XTree.getD_of_get_none c "out" "a0" hout]
  decide

theorem lexLt_nat_zero_false (n1 n2 : Nat) :
    lexLt ((n1 : Int), (n2 : Int)) ((0 : Int), (0 : Int)) = false := by
  simp only [lexLt]
  have h1 : ¬ ((n1 : Int) < 0) := by omega
  have h2 : ¬ ((n2 : Int) < 0) := by omega
  simp [h1, h2]

theorem sortKey_app_elem (og : XTree)
    (sOut sIn : String) (n1 n2 : Int)
    (h1 : parseInt (sIn.drop 1) = some n1)
    (h2 : parseInt (sOut.drop 1) = some n2) :
    sortKey ((og.set "out" sOut).set "in" sIn) = some (n1, n2) := by
  have hgin : ((og.set "out" sOut).set "in" sIn).get "in" = some sIn :=
    Xml.XTree.get_set_self _ "in" sIn
  have hgout : ((og.set "out" sOut).set "in" sIn).get "out" = some sOut := by
    rw [Xml.XTree.get_set_ne _ "in" sIn "out" rfl]
    exact Xml.XTree.get_set_self _ "out" sOut
  rw [sortKey_unfold,
    XTree.getD_of_get_some _ "in" "b0" sIn hgin,
    XTree.getD_of_get_some _ "out" "a0" sOut hgout,
    h1, h2]

theorem mapM_append_some {α β : Type} (f : α → Option β) :
    ∀ (xs ys : List α) (as bs : List β),
    xs.mapM f = some as → ys.mapM f = some bs →
    (xs ++ ys).mapM f = some (as ++ bs) := by
  intro xs
  induction xs with
  | nil =>
    intro ys as bs h1 h2
    rw [show ([] : List α).mapM f = some [] from rfl] at h1
    cases h1
    simpa using h2
  | cons x xs ih =>
    intro ys as bs h1 h2
    rw [List.mapM_cons] at h1
    cases hx : f x with
    | none => rw [hx] at h1; exact Option.noConfusion h1
    | some y =>
      rw [hx] at h1
      cases hxs : xs.mapM f with
      | none => rw [hxs] at h1; exact Option.noConfusion h1
      | some as0 =>
        rw [hxs] at h1
        have hy : y :: as0 = as := by simpa using h1
        rw [← hy]
        rw [List.cons_append, List.mapM_cons, hx, ih ys as0 bs hxs h2]
        rfl

end AtagFix

/-- C4: `update_atag` never modifies the `salign` or `alignFile`
children: under the format assumptions that non-`align` children carry
no `in`/`out` attributes and that the manual word ids prefixed with the
key letters parse as non-negative integers after dropping the key
letter, the written file is exactly the untouched non-`align` children
of the input, in their original order, followed by `align` elements
only; and those `align` elements are exactly (a permutation, by the
final stable sort, of) the elements appended by the remapping loop for
the valid segments — every other `align` element is dropped. -/
theorem update_atag_frame_spec (keySrc keyTgt : String)
    (segs : List AtagFix.SegTrees) (rootChildren out : List Xml.XTree)
    (hrun : AtagFix.update_atag keySrc keyTgt segs rootChildren
      = AtagFix.UpdateOutcome.written out)
    (hNA : ∀ c ∈ rootChildren, c.tag ≠ "align" →
      c.get "in" = none ∧ c.get "out" = none)
    (hnum : ∀ sg ∈ segs,
      (∀ w ∈ sg.srcMan.children, ∃ n : Nat,
        AtagFix.parseInt ((keySrc ++ AtagFix.fstr (w.get "id")).drop 1)
          = some ((n : Nat) : Int)) ∧
      (∀ w ∈ sg.tgtMan.children, ∃ n : Nat,
        AtagFix.parseInt ((keyTgt ++ AtagFix.fstr (w.get "id")).drop 1)
          = some ((n : Nat) : Int))) :
    ∃ tree1 app als,
      AtagFix.processSegs keySrc keyTgt segs rootChildren
          (AtagFix.validInit rootChildren)
        = AtagFix.LoopRes.cont tree1 (AtagFix.validInit rootChildren ++ app) ∧
      out = AtagFix.validInit rootChildren ++ als ∧
      als.Perm app ∧
      (∀ a ∈ als, a.tag = "align") := by
  rw [AtagFix.update_atag_eq] at hrun
  cases hps : AtagFix.processSegs keySrc keyTgt segs rootChildren
      (AtagFix.validInit rootChildren) with
  | errorReturn => rw [hps] at hrun; cases hrun
  | exn => rw [hps] at hrun; cases hrun
  | cont tree1 valid1 =>
    rw [hps] at hrun
    replace hrun : (match AtagFix.sortChildren valid1 with
        | none => AtagFix.UpdateOutcome.exn
        | some sortedChildren => AtagFix.UpdateOutcome.written sortedChildren)
        = AtagFix.UpdateOutcome.written out := hrun
    cases hsc : AtagFix.sortChildren valid1 with
    | none => rw [hsc] at hrun; cases hrun
    | some s =>
      rw [hsc] at hrun
      have hs : s = out := by cases hrun; rfl
      subst hs
      obtain ⟨app, origs, happ, hperm, htags, hf⟩ :=
        AtagFix.processSegs_cont_spec keySrc keyTgt segs rootChildren
          (AtagFix.validInit rootChildren) tree1 valid1 hps
      subst happ
      -- every appended element is an align element with a
      -- non-negative sort key
      have happF : ∀ a ∈ app, a.tag = "align" ∧
          ∃ k : Int × Int, AtagFix.sortKey a = some k ∧
            AtagFix.lexLt k ((0 : Int), (0 : Int)) = false := by
        intro a ha
        obtain ⟨og, hog, hr⟩ := AtagFix.forall₂_mem_left hf ha
        obtain ⟨sg, hsg, m, ⟨oo, hmem⟩, hrw⟩ := hr
        obtain ⟨inval, mt, hin, hlk, hshape⟩ := AtagFix.rewriteEl_eq_some hrw
        constructor
        · rw [hshape, Xml.XTree.tag_set, Xml.XTree.tag_set]
          have := htags og hog
          simpa using this
        · obtain ⟨pm, hpm, hmo, hmm⟩ := AtagFix.mem_orig_man_mapping hmem
          have hwm : pm.2 ∈ sg.srcMan.children := (List.of_mem_zip hpm).2
          obtain ⟨n2, hn2⟩ := (hnum sg hsg).1 pm.2 hwm
          obtain ⟨kk, hkk⟩ := Xml.dictLookup_mem _ _ _ hlk
          obtain ⟨pt, hpt, hto, htm⟩ := AtagFix.mem_orig_man_mapping hkk
          have hwt : pt.2 ∈ sg.tgtMan.children := (List.of_mem_zip hpt).2
          obtain ⟨n1, hn1⟩ := (hnum sg hsg).2 pt.2 hwt
          refine ⟨((n1 : Int), (n2 : Int)), ?_,
            AtagFix.lexLt_nat_zero_false n1 n2⟩
          rw [hshape]
          apply AtagFix.sortKey_app_elem
          · rw [← htm] at hn1
            exact hn1
          · rw [← hmm] at hn2
            exact hn2
      -- keys of the untouched non-align children
      have hVI : ∀ c ∈ AtagFix.validInit rootChildren,
          AtagFix.sortKey c = some ((0 : Int), (0 : Int)) := by
        intro c hc
        have hcm := List.mem_filter.mp hc
        have htagne : c.tag ≠ "align" := by
          intro he
          have h2 := hcm.2
          rw [he] at h2
          simp at h2
        obtain ⟨hi, ho⟩ := hNA c hcm.1 htagne
        exact AtagFix.sortKey_no_inout c hi ho
      obtain ⟨kn, hknM, hknF⟩ := AtagFix.mapM_some_of_forall
        (fun c => (AtagFix.sortKey c).map (fun k => (k, c)))
        (AtagFix.validInit rootChildren)
        (fun c hc => by simp [hVI c hc])
      obtain ⟨ka, hkaM, hkaF⟩ := AtagFix.mapM_some_of_forall
        (fun c => (AtagFix.sortKey c).map (fun k => (k, c)))
        app
        (fun a ha => by
          obtain ⟨_, k, hk, _⟩ := happF a ha
          simp [hk])
      have hM := AtagFix.mapM_append_some
        (fun c => (AtagFix.sortKey c).map (fun k => (k, c)))
        (AtagFix.validInit rootChildren) app kn ka hknM hkaM
      obtain ⟨keyed, hkeyed, hout⟩ := AtagFix.sortChildren_eq_some hsc
      have hkk2 : keyed = kn ++ ka := by
        rw [hkeyed] at hM
        exact Option.some_inj.mp hM
      subst hkk2
      have hknkeys : ∀ x ∈ kn, x.1 = ((0 : Int), (0 : Int)) := by
        intro x hx
        obtain ⟨c, hc, hfc⟩ := AtagFix.forall₂_mem_left hknF hx
        rw [hVI c hc] at hfc
        have h3 : (((0 : Int), (0 : Int)), c) = x := by simpa using hfc
        rw [← h3]
      have hkakeys : ∀ x ∈ ka,
          AtagFix.lexLt x.1 ((0 : Int), (0 : Int)) = false := by
        intro x hx
        obtain ⟨a, ha, hfa⟩ := AtagFix.forall₂_mem_left hkaF hx
        obtain ⟨_, k, hk, hklt⟩ := happF a ha
        rw [hk] at hfa
        have h3 : (k, a) = x := by simpa using hfa
        rw [← h3]
        exact hklt
      have hknsnd : kn.map Prod.snd = AtagFix.validInit rootChildren :=
        AtagFix.map_snd_eq_of_forall₂ _ kn hknF
      have hkasnd : ka.map Prod.snd = app :=
        AtagFix.map_snd_eq_of_forall₂ _ ka hkaF
      refine ⟨tree1, app,
        (AtagFix.insSort Prod.fst ka).map Prod.snd, rfl, ?_, ?_, ?_⟩
      · rw [hout, AtagFix.insSort_split Prod.fst kn ka hknkeys hkakeys,
          List.map_append, hknsnd]
      · rw [← hkasnd]
        exact (AtagFix.insSort_perm Prod.fst ka).map Prod.snd
      · intro a ha
        have haa : a ∈ app := by
          rw [← hkasnd]
          have hp2 := (AtagFix.insSort_perm Prod.fst ka).map Prod.snd
          exact hp2.mem_iff.mp ha
        exact (happF a haa).1

/-- Witness for C4 at a concrete one-segment atag file: the `salign`
element survives unchanged at the front and the surviving `align`
element is the remapped one. -/
theorem update_atag_frame_spec_witness :
    ∃ tree1 app als,
      AtagFix.processSegs "a" "b"
          [⟨Xml.XTree.mk "tree" [] none none
              [Xml.XTree.mk "W" [("id", "1")] (some "x") none []],
            Xml.XTree.mk "tree" [] none none
              [Xml.XTree.mk "W" [("id", "2")] (some "x") none []],
            Xml.XTree.mk "tree" [] none none
              [Xml.XTree.mk "W" [("id", "3")] (some "u") none []],
            Xml.XTree.mk "tree" [] none none
              [Xml.XTree.mk "W" [("id", "5")] (some "u") none []]⟩]
          [Xml.XTree.mk "salign" [("src", "1"), ("tgt", "1")] none none [],
           Xml.XTree.mk "align" [("in", "b3"), ("out", "a1")] none none [],
           Xml.XTree.mk "align" [("in", "b9"), ("out", "a9")] none none []]
          (AtagFix.validInit
            [Xml.XTree.mk "salign" [("src", "1"), ("tgt", "1")] none none [],
             Xml.XTree.mk "align" [("in", "b3"), ("out", "a1")] none none [],
             Xml.XTree.mk "align" [("in", "b9"), ("out", "a9")]
               none none []])
        = AtagFix.LoopRes.cont tree1
            (AtagFix.validInit
              [Xml.XTree.mk "salign" [("src", "1"), ("tgt", "1")]
                 none none [],
               Xml.XTree.mk "align" [("in", "b3"), ("out", "a1")]
                 none none [],
               Xml.XTree.mk "align" [("in", "b9"), ("out", "a9")]
                 none none []] ++ app) ∧
      [Xml.XTree.mk "salign" [("src", "1"), ("tgt", "1")] none none [],
       Xml.XTree.mk "align" [("in", "b5"), ("out", "a2")] none none []]
        = AtagFix.validInit
            [Xml.XTree.mk "salign" [("src", "1"), ("tgt", "1")] none none [],
             Xml.XTree.mk "align" [("in", "b3"), ("out", "a1")] none none [],
             Xml.XTree.mk "align" [("in", "b9"), ("out", "a9")]
               none none []] ++ als ∧
      als.Perm app ∧
      (∀ a ∈ als, a.tag = "align") :=
  update_atag_frame_spec "a" "b"
    [⟨Xml.XTree.mk "tree" [] none none
        [Xml.XTree.mk "W" [("id", "1")] (some "x") none []],
      Xml.XTree.mk "tree" [] none none
        [Xml.XTree.mk "W" [("id", "2")] (some "x") none []],
      Xml.XTree.mk "tree" [] none none
        [Xml.XTree.mk "W" [("id", "3")] (some "u") none []],
      Xml.XTree.mk "tree" [] none none
        [Xml.XTree.mk "W" [("id", "5")] (some "u") none []]⟩]
    [Xml.XTree.mk "salign" [("src", "1"), ("tgt", "1")] none none [],
     Xml.XTree.mk "align" [("in", "b3"), ("out", "a1")] none none [],
     Xml.XTree.mk "align" [("in", "b9"), ("out", "a9")] none none []]
    [Xml.XTree.mk "salign" [("src", "1"), ("tgt", "1")] none none [],
     Xml.XTree.mk "align" [("in", "b5"), ("out", "a2")] none none []]
    rfl
    (by
      intro c hc htag
      fin_cases hc
      · exact ⟨rfl, rfl⟩
      · exact absurd rfl htag
      · exact absurd rfl htag)
    (by
      intro sg hsg
      fin_cases hsg
      constructor
      · intro w hw
        fin_cases hw
        exact ⟨2, by decide⟩
      · intro w hw
        fin_cases hw
        exact ⟨5, by decide⟩)

namespace AtagFix

open Xml

theorem processTokens_survive (km kt : String)
    (tm : List (Option String × Option String)) :
    ∀ (entries : List (Option String × Option String))
      (tree valid tree' valid' : List XTree),
    processTokens km kt tm entries tree valid = .cont tree' valid' →
    ∀ el ∈ tree,
    (∀ e ∈ entries, (el.get "out" == some (km ++ fstr e.1)) = false) →
    el ∈ tree' := by
  intro entries
  induction entries with
  | nil =>
    intro tree valid tree' valid' hrun el hel _
    rw [show processTokens km kt tm [] tree valid
        = .cont tree valid from rfl] at hrun
    cases hrun
    exact hel
  | cons e rest ih =>
    intro tree valid tree' valid' hrun el hel hq
    obtain ⟨o, m⟩ := e
    rw [processTokens_cons] at hrun
    cases hpt : processToken km kt tm o m tree valid with
    | errorReturn => rw [hpt] at hrun; cases hrun
    | exn => rw [hpt] at hrun; cases hrun
    | cont tree1 valid1 =>
      rw [hpt] at hrun
      replace hrun : processTokens km kt tm rest tree1 valid1
          = .cont tree' valid' := hrun
      obtain ⟨ht1, _, _, _⟩ :=
        processToken_cont_spec km kt tm o m tree valid tree1 valid1 hpt
      have hel1 : el ∈ tree1 := by
        rw [ht1]
        refine List.mem_filter.mpr ⟨hel, ?_⟩
        have hqe := hq (o, m) (List.mem_cons_self _ _)
        simp [isAlignOut, hqe]
      exact ih tree1 valid1 tree' valid' hrun el hel1
        (fun e2 he2 => hq e2 (List.mem_cons_of_mem _ he2))

theorem processTokens_remaps (km kt : String)
    (tm : List (Option String × Option String)) :
    ∀ (entries : List (Option String × Option String))
      (tree valid tree' valid' : List XTree),
    processTokens km kt tm entries tree valid = .cont tree' valid' →
    ∀ (el : XTree), el ∈ tree → (el.tag == "align") = true →
    ∀ (j : Nat) (hj : j < entries.length),
    el.get "out" = some (km ++ fstr (entries.get ⟨j, hj⟩).1) →
    (∀ (i : Nat) (hi : i < j),
      km ++ fstr ((entries.get ⟨i, Nat.lt_trans hi hj⟩).1)
        ≠ km ++ fstr ((entries.get ⟨j, hj⟩).1)) →
    ∃ a, rewriteEl km kt tm (entries.get ⟨j, hj⟩).2 el = some a ∧
      a ∈ valid' := by
  intro entries
  induction entries with
  | nil =>
    intro tree valid tree' valid' _ el _ _ j hj
    exact absurd hj (by simp)
  | cons e rest ih =>
    intro tree valid tree' valid' hrun el hel htag j hj hout hbefore
    obtain ⟨o, m⟩ := e
    rw [processTokens_cons] at hrun
    cases hpt : processToken km kt tm o m tree valid with
    | errorReturn => rw [hpt] at hrun; cases hrun
    | exn => rw [hpt] at hrun; cases hrun
    | cont tree1 valid1 =>
      rw [hpt] at hrun
      replace hrun : processTokens km kt tm rest tree1 valid1
          = .cont tree' valid' := hrun
      obtain ⟨ht1, app1, happ1, hf1⟩ :=
        processToken_cont_spec km kt tm o m tree valid tree1 valid1 hpt
      cases j with
      | zero =>
        have helf : el ∈ tree.filter (isAlignOut (km ++ fstr o)) := by
          refine List.mem_filter.mpr ⟨hel, ?_⟩
          simp only [isAlignOut, htag, Bool.true_and]
          rw [hout]
          show (some (km ++ fstr o) == some (km ++ fstr o)) = true
          simp
        obtain ⟨a, ha, hrw⟩ := forall₂_mem_right hf1 helf
        refine ⟨a, hrw, ?_⟩
        obtain ⟨app2, _, happ2, _, _, _⟩ :=
          processTokens_cont_spec km kt tm rest tree1 valid1 tree' valid'
            hrun
        rw [happ2, happ1]
        exact List.mem_append_left _ (List.mem_append_right _ ha)
      | succ j0 =>
        have hne : km ++ fstr o
            ≠ km ++ fstr ((((o, m) :: rest).get
              ⟨j0 + 1, hj⟩).1) :=
          hbefore 0 (Nat.succ_pos j0)
        have hel1 : el ∈ tree1 := by
          rw [ht1]
          refine List.mem_filter.mpr ⟨hel, ?_⟩
          have hbeq : (el.get "out" == some (km ++ fstr o)) = false := by
            rw [hout]
            exact beq_eq_false_iff_ne.mpr (fun hcon =>
              hne (Option.some_inj.mp hcon).symm)
          simp [isAlignOut, hbeq]
        exact ih tree1 valid1 tree' valid' hrun el hel1 htag j0
          (Nat.lt_of_succ_lt_succ hj) hout
          (fun i2 hi2 => hbefore (i2 + 1) (Nat.succ_lt_succ hi2))

theorem processSegs_remaps (km kt : String) :
    ∀ (segs : List SegTrees) (tree valid tree' valid' : List XTree),
    processSegs km kt segs tree valid = .cont tree' valid' →
    ∀ (el : XTree), el ∈ tree → (el.tag == "align") = true →
    ∀ (i : Nat) (hi : i < segs.length) (j : Nat)
      (hj : j < (orig_man_mapping (segs.get ⟨i, hi⟩).srcOrig
        (segs.get ⟨i, hi⟩).srcMan).length),
    el.get "out" = some (km ++ fstr ((orig_man_mapping
      (segs.get ⟨i, hi⟩).srcOrig (segs.get ⟨i, hi⟩).srcMan).get
        ⟨j, hj⟩).1) →
    (∀ (i2 : Nat) (hi2 : i2 < segs.length) (j2 : Nat)
      (hj2 : j2 < (orig_man_mapping (segs.get ⟨i2, hi2⟩).srcOrig
        (segs.get ⟨i2, hi2⟩).srcMan).length),
      i2 < i ∨ (i2 = i ∧ j2 < j) →
      km ++ fstr ((orig_man_mapping (segs.get ⟨i2, hi2⟩).srcOrig
        (segs.get ⟨i2, hi2⟩).srcMan).get ⟨j2, hj2⟩).1
        ≠ km ++ fstr ((orig_man_mapping (segs.get ⟨i, hi⟩).srcOrig
          (segs.get ⟨i, hi⟩).srcMan).get ⟨j, hj⟩).1) →
    ∃ a, rewriteEl km kt (orig_man_mapping (segs.get ⟨i, hi⟩).tgtOrig
        (segs.get ⟨i, hi⟩).tgtMan)
        ((orig_man_mapping (segs.get ⟨i, hi⟩).srcOrig
          (segs.get ⟨i, hi⟩).srcMan).get ⟨j, hj⟩).2 el = some a ∧
      a ∈ valid' := by
  intro segs
  induction segs with
  | nil =>
    intro tree valid tree' valid' _ el _ _ i hi
    exact absurd hi (by simp)
  | cons sg rest ih =>
    intro tree valid tree' valid' hrun el hel htag i hi j hj hout hbefore
    rw [processSegs_cons] at hrun
    cases hpt : processTokens km kt
        (orig_man_mapping sg.tgtOrig sg.tgtMan)
        (orig_man_mapping sg.srcOrig sg.srcMan) tree valid with
    | errorReturn => rw [hpt] at hrun; cases hrun
    | exn => rw [hpt] at hrun; cases hrun
    | cont tree1 valid1 =>
      rw [hpt] at hrun
      replace hrun : processSegs km kt rest tree1 valid1
          = .cont tree' valid' := hrun
      cases i with
      | zero =>
        have hjE : j < (orig_man_mapping sg.srcOrig sg.srcMan).length := hj
        obtain ⟨a, hrw, ha⟩ := processTokens_remaps km kt
          (orig_man_mapping sg.tgtOrig sg.tgtMan)
          (orig_man_mapping sg.srcOrig sg.srcMan)
          tree valid tree1 valid1 hpt el hel htag j hjE hout
          (fun i2 hi2 =>
            hbefore 0 (Nat.succ_pos _) i2 (Nat.lt_trans hi2 hjE)
              (Or.inr ⟨rfl, hi2⟩))
        refine ⟨a, hrw, ?_⟩
        obtain ⟨app2, _, happ2, _, _, _⟩ :=
          processSegs_cont_spec km kt rest tree1 valid1 tree' valid' hrun
        rw [happ2]
        exact List.mem_append_left _ ha
      | succ i0 =>
        have hsurv : el ∈ tree1 := by
          refine processTokens_survive km kt _ _ tree valid tree1 valid1
            hpt el hel ?_
          intro e he
          obtain ⟨⟨j2, hj2len⟩, hj2get⟩ := List.mem_iff_get.mp he
          have hne : km ++ fstr ((orig_man_mapping sg.srcOrig
                sg.srcMan).get ⟨j2, hj2len⟩).1
              ≠ km ++ fstr ((orig_man_mapping
                ((sg :: rest).get ⟨i0 + 1, hi⟩).srcOrig
                ((sg :: rest).get ⟨i0 + 1, hi⟩).srcMan).get ⟨j, hj⟩).1 :=
            hbefore 0 (Nat.succ_pos _) j2 hj2len (Or.inl (Nat.succ_pos i0))
          rw [hj2get] at hne
          rw [hout]
          exact beq_eq_false_iff_ne.mpr (fun hcon =>
            hne (Option.some_inj.mp hcon).symm)
        exact ih tree1 valid1 tree' valid' hrun el hsurv htag i0
          (Nat.lt_of_succ_lt_succ hi) j hj hout
          (fun i2 hi2 j2 hj2 hcond =>
            hbefore (i2 + 1) (Nat.succ_lt_succ hi2) j2 hj2
              (by
                rcases hcond with h1 | ⟨h2, h3⟩
                · exact Or.inl (Nat.succ_lt_succ h1)
                · exact Or.inr ⟨by omega, h3⟩))

end AtagFix


namespace AtagFix

open Xml

theorem foldl_dictInsert_eq_append {α β γ : Type} [BEq α] [LawfulBEq α]
    (f : γ → α) (g : γ → β) :
    ∀ (ps : List γ) (d : List (α × β)),
    (∀ e ∈ d, ∀ p ∈ ps, (e.1 == f p) = false) →
    (ps.map f).Nodup →
    ps.foldl (fun acc p => dictInsert acc (f p) (g p)) d
      = d ++ ps.map (fun p => (f p, g p)) := by
  intro ps
  induction ps with
  | nil =>
    intro d _ _
    simp
  | cons p ps ih =>
    intro d hfresh hnd
    rw [List.foldl_cons]
    have hany : d.any (fun q => q.1 == f p) = false := by
      rw [List.any_eq_false]
      intro q hq
      simp [hfresh q hq p (List.mem_cons_self _ _)]
    have hins : dictInsert d (f p) (g p) = d ++ [(f p, g p)] := by
      rw [dictInsert, hany]
      simp
    rw [hins]
    rw [ih (d ++ [(f p, g p)]) ?_ ?_]
    · simp
    · intro e he q hq
      rcases List.mem_append.mp he with h1 | h2
      · exact hfresh e h1 q (List.mem_cons_of_mem _ hq)
      · have he2 : e = (f p, g p) := by simpa using h2
        rw [he2]
        refine beq_eq_false_iff_ne.mpr ?_
        intro hcon
        have hceq : f p = f q := hcon
        have hpmem : f p ∉ ps.map f := by
          rw [List.map_cons] at hnd
          exact (List.nodup_cons.mp hnd).1
        refine hpmem ?_
        rw [hceq]
        exact List.mem_map_of_mem f hq
    · rw [List.map_cons] at hnd
      exact (List.nodup_cons.mp hnd).2

theorem orig_man_mapping_eq_zip (orig man : XTree)
    (hnd : ((orig.children.zip man.children).map
      (fun p => p.1.get "id")).Nodup) :
    orig_man_mapping orig man
      = (orig.children.zip man.children).map
          (fun p => (p.1.get "id", p.2.get "id")) := by
  have h := foldl_dictInsert_eq_append
    (fun p : XTree × XTree => p.1.get "id")
    (fun p : XTree × XTree => p.2.get "id")
    (orig.children.zip man.children) []
    (by intro e he; cases he) hnd
  rw [List.nil_append] at h
  exact h

theorem get_congr_list {α : Type} {l l2 : List α} (h : l = l2) (k : Nat)
    (hk : k < l.length) (hk2 : k < l2.length) :
    l.get ⟨k, hk⟩ = l2.get ⟨k, hk2⟩ := by
  subst h
  rfl

end AtagFix

/-- C1: for an identifier present in both directories and a valid
source segment (its original and manual `.src` trees and the aligned
original and manual `.tgt` trees element-equal), every `align` element
of the atag root whose `out` attribute is the src key letter followed by
the id of the `k`-th original source word is rewritten so that `out`
becomes the src key letter followed by the id of the `k`-th manual
source word, and `in` becomes the tgt key letter followed by the result
of applying the positional original-to-manual target mapping to the
element's previous `in` id; the rewritten element is in the written
file.  The word ids are assumed pairwise distinct, within the segment
and across the file, as `fix_tokenization.py` produces them. -/
theorem update_atag_remaps (keySrc keyTgt : String)
    (segs : List AtagFix.SegTrees) (rootChildren out : List Xml.XTree)
    (sg : AtagFix.SegTrees) (i : Nat) (hi : i < segs.length)
    (hsg : segs.get ⟨i, hi⟩ = sg)
    (hrun : AtagFix.update_atag keySrc keyTgt segs rootChildren
      = AtagFix.UpdateOutcome.written out)
    (hEqS : AtagFix.elements_equal sg.srcOrig sg.srcMan = true)
    (hEqT : AtagFix.elements_equal sg.tgtOrig sg.tgtMan = true)
    (hids : (sg.srcOrig.children.map
      (fun c => AtagFix.fstr (c.get "id"))).Nodup)
    (hnd : (segs.flatMap (fun s =>
      (AtagFix.orig_man_mapping s.srcOrig s.srcMan).map
        (fun e => keySrc ++ AtagFix.fstr e.1))).Nodup)
    (k : Nat) (hk : k < sg.srcOrig.children.length)
    (hk2 : k < sg.srcMan.children.length)
    (el : Xml.XTree) (hel : el ∈ rootChildren)
    (htag : el.tag = "align")
    (hout : el.get "out" = some (keySrc ++
      AtagFix.fstr ((sg.srcOrig.children.get ⟨k, hk⟩).get "id"))) :
    ∃ inval mt,
      el.get "in" = some inval ∧
      Xml.dictLookup (AtagFix.orig_man_mapping sg.tgtOrig sg.tgtMan)
        (some (inval.drop 1)) = some mt ∧
      (el.set "out" (keySrc ++
          AtagFix.fstr ((sg.srcMan.children.get ⟨k, hk2⟩).get "id"))).set
        "in" (keyTgt ++ AtagFix.fstr mt) ∈ out := by
  subst hsg
  -- run decomposition
  rw [AtagFix.update_atag_eq] at hrun
  cases hps : AtagFix.processSegs keySrc keyTgt segs rootChildren
      (AtagFix.validInit rootChildren) with
  | errorReturn => rw [hps] at hrun; cases hrun
  | exn => rw [hps] at hrun; cases hrun
  | cont tree1 valid1 =>
    rw [hps] at hrun
    replace hrun : (match AtagFix.sortChildren valid1 with
        | none => AtagFix.UpdateOutcome.exn
        | some sortedChildren => AtagFix.UpdateOutcome.written sortedChildren)
        = AtagFix.UpdateOutcome.written out := hrun
    cases hsc : AtagFix.sortChildren valid1 with
    | none => rw [hsc] at hrun; cases hrun
    | some s =>
      rw [hsc] at hrun
      have hws : AtagFix.UpdateOutcome.written s
          = AtagFix.UpdateOutcome.written out := hrun
      have hs2 : s = out := by cases hws; rfl
      -- the source mapping is the positional zip mapping
      have hlen : (segs.get ⟨i, hi⟩).srcOrig.children.length
          = (segs.get ⟨i, hi⟩).srcMan.children.length :=
        ((AtagFix.elements_equal_characterization _ _).mp hEqS).2.1
      have hids2 : ((segs.get ⟨i, hi⟩).srcOrig.children.map
          (fun c => c.get "id")).Nodup := by
        refine List.Nodup.of_map AtagFix.fstr ?_
        rw [List.map_map]
        exact hids
      have hzf : ((segs.get ⟨i, hi⟩).srcOrig.children.zip
            (segs.get ⟨i, hi⟩).srcMan.children).map Prod.fst
          = (segs.get ⟨i, hi⟩).srcOrig.children :=
        List.map_fst_zip _ _ (le_of_eq hlen)
      have hkeyn : (((segs.get ⟨i, hi⟩).srcOrig.children.zip
          (segs.get ⟨i, hi⟩).srcMan.children).map
            (fun p => p.1.get "id")).Nodup := by
        have hmm : (((segs.get ⟨i, hi⟩).srcOrig.children.zip
            (segs.get ⟨i, hi⟩).srcMan.children).map
              (fun p => p.1.get "id"))
            = (((segs.get ⟨i, hi⟩).srcOrig.children.zip
                (segs.get ⟨i, hi⟩).srcMan.children).map Prod.fst).map
                  (fun c => c.get "id") := by
          rw [List.map_map]
          rfl
        rw [hmm, hzf]
        exact hids2
      have hmapeq := AtagFix.orig_man_mapping_eq_zip
        (segs.get ⟨i, hi⟩).srcOrig (segs.get ⟨i, hi⟩).srcMan hkeyn
      have hziplen : ((segs.get ⟨i, hi⟩).srcOrig.children.zip
          (segs.get ⟨i, hi⟩).srcMan.children).length
          = (segs.get ⟨i, hi⟩).srcOrig.children.length := by
        rw [List.length_zip, hlen, Nat.min_self]
      have hjm : k < (AtagFix.orig_man_mapping
          (segs.get ⟨i, hi⟩).srcOrig (segs.get ⟨i, hi⟩).srcMan).length := by
        rw [hmapeq, List.length_map, hziplen]
        exact hk
      have hmk : k < (((segs.get ⟨i, hi⟩).srcOrig.children.zip
          (segs.get ⟨i, hi⟩).srcMan.children).map
            (fun p => (p.1.get "id", p.2.get "id"))).length := by
        rw [List.length_map, hziplen]
        exact hk
      have hentry : (AtagFix.orig_man_mapping
          (segs.get ⟨i, hi⟩).srcOrig (segs.get ⟨i, hi⟩).srcMan).get
            ⟨k, hjm⟩
          = (((segs.get ⟨i, hi⟩).srcOrig.children.get ⟨k, hk⟩).get "id",
             ((segs.get ⟨i, hi⟩).srcMan.children.get ⟨k, hk2⟩).get "id") := by
        rw [AtagFix.get_congr_list hmapeq k hjm hmk]
        simp [List.get_eq_getElem, List.getElem_map, List.getElem_zip]
      -- distinctness of all query ids, blockwise
      have hndf : ((segs.map (fun s =>
          (AtagFix.orig_man_mapping s.srcOrig s.srcMan).map
            (fun e => keySrc ++ AtagFix.fstr e.1))).flatten).Nodup := hnd
      obtain ⟨hblocks, hdisj⟩ := List.nodup_flatten.mp hndf
      have hilen : i < (segs.map (fun s =>
          (AtagFix.orig_man_mapping s.srcOrig s.srcMan).map
            (fun e => keySrc ++ AtagFix.fstr e.1))).length := by
      -- all queries issued before this one use a different out value
        rw [List.length_map]
        exact hi
      have hout2 : el.get "out" = some (keySrc ++
          AtagFix.fstr ((AtagFix.orig_man_mapping
            (segs.get ⟨i, hi⟩).srcOrig
            (segs.get ⟨i, hi⟩).srcMan).get ⟨k, hjm⟩).1) := by
        rw [hentry]
        exact hout
      have hbefore : ∀ (i2 : Nat) (hi2 : i2 < segs.length) (j2 : Nat)
          (hj2 : j2 < (AtagFix.orig_man_mapping
            (segs.get ⟨i2, hi2⟩).srcOrig
            (segs.get ⟨i2, hi2⟩).srcMan).length),
          i2 < i ∨ (i2 = i ∧ j2 < k) →
          keySrc ++ AtagFix.fstr ((AtagFix.orig_man_mapping
            (segs.get ⟨i2, hi2⟩).srcOrig
            (segs.get ⟨i2, hi2⟩).srcMan).get ⟨j2, hj2⟩).1
            ≠ keySrc ++ AtagFix.fstr ((AtagFix.orig_man_mapping
              (segs.get ⟨i, hi⟩).srcOrig
              (segs.get ⟨i, hi⟩).srcMan).get ⟨k, hjm⟩).1 := by
        intro i2 hi2 j2 hj2 hcond
        have hi2len : i2 < (segs.map (fun s =>
            (AtagFix.orig_man_mapping s.srcOrig s.srcMan).map
              (fun e => keySrc ++ AtagFix.fstr e.1))).length := by
          rw [List.length_map]
          exact hi2
        rcases hcond with hlt | ⟨heq, hjlt⟩
        · -- earlier segment: blocks are disjoint
          intro hcon
          have hq2mem : keySrc ++ AtagFix.fstr ((AtagFix.orig_man_mapping
              (segs.get ⟨i2, hi2⟩).srcOrig
              (segs.get ⟨i2, hi2⟩).srcMan).get ⟨j2, hj2⟩).1
              ∈ (segs.map (fun s =>
                (AtagFix.orig_man_mapping s.srcOrig s.srcMan).map
                  (fun e => keySrc ++ AtagFix.fstr e.1))).get
                    ⟨i2, hi2len⟩ := by
            simp only [List.get_eq_getElem, List.getElem_map]
            exact List.mem_map_of_mem _
              (List.mem_iff_get.mpr ⟨⟨j2, hj2⟩, rfl⟩)
          have hqimem : keySrc ++ AtagFix.fstr ((AtagFix.orig_man_mapping
              (segs.get ⟨i, hi⟩).srcOrig
              (segs.get ⟨i, hi⟩).srcMan).get ⟨k, hjm⟩).1
              ∈ (segs.map (fun s =>
                (AtagFix.orig_man_mapping s.srcOrig s.srcMan).map
                  (fun e => keySrc ++ AtagFix.fstr e.1))).get
                    ⟨i, hilen⟩ := by
            simp only [List.get_eq_getElem, List.getElem_map]
            exact List.mem_map_of_mem _
              (List.mem_iff_get.mpr ⟨⟨k, hjm⟩, rfl⟩)
          have hdis := List.pairwise_iff_get.mp hdisj ⟨i2, hi2len⟩
            ⟨i, hilen⟩ (Fin.mk_lt_mk.mpr hlt)
          rw [← hcon] at hqimem
          exact hdis hq2mem hqimem
        · -- same segment, earlier entry: the block has no duplicates
          subst heq
          intro hcon
          have hbnd : ((AtagFix.orig_man_mapping
              (segs.get ⟨i2, hi2⟩).srcOrig
              (segs.get ⟨i2, hi2⟩).srcMan).map
                (fun e => keySrc ++ AtagFix.fstr e.1)).Nodup := by
            refine hblocks _ ?_
            exact List.mem_map_of_mem _
              (List.mem_iff_get.mpr ⟨⟨i2, hi2⟩, rfl⟩)
          have hj2b : j2 < ((AtagFix.orig_man_mapping
              (segs.get ⟨i2, hi2⟩).srcOrig
              (segs.get ⟨i2, hi2⟩).srcMan).map
                (fun e => keySrc ++ AtagFix.fstr e.1)).length := by
            rw [List.length_map]
            exact hj2
          have hkb : k < ((AtagFix.orig_man_mapping
              (segs.get ⟨i2, hi2⟩).srcOrig
              (segs.get ⟨i2, hi2⟩).srcMan).map
                (fun e => keySrc ++ AtagFix.fstr e.1)).length := by
            rw [List.length_map]
            exact hjm
          have hgets : ((AtagFix.orig_man_mapping
              (segs.get ⟨i2, hi2⟩).srcOrig
              (segs.get ⟨i2, hi2⟩).srcMan).map
                (fun e => keySrc ++ AtagFix.fstr e.1)).get ⟨j2, hj2b⟩
              = ((AtagFix.orig_man_mapping
                (segs.get ⟨i2, hi2⟩).srcOrig
                (segs.get ⟨i2, hi2⟩).srcMan).map
                  (fun e => keySrc ++ AtagFix.fstr e.1)).get ⟨k, hkb⟩ := by
            simp only [List.get_eq_getElem, List.getElem_map]
            simp only [List.get_eq_getElem] at hcon
            exact hcon
          have hinj := (List.Nodup.get_inj_iff hbnd).mp hgets
          have hjk : j2 = k := by
            simpa using hinj
          omega
      -- apply the remapping lemma and move the element across the sort
      obtain ⟨a, hrw, ha⟩ := AtagFix.processSegs_remaps keySrc keyTgt segs
        rootChildren (AtagFix.validInit rootChildren) tree1 valid1 hps el
        hel (by simp [htag]) i hi k hjm hout2 hbefore
      obtain ⟨inval, mt, hin, hlk, hshape⟩ := AtagFix.rewriteEl_eq_some hrw
      refine ⟨inval, mt, hin, hlk, ?_⟩
      have hval : ((AtagFix.orig_man_mapping
          (segs.get ⟨i, hi⟩).srcOrig (segs.get ⟨i, hi⟩).srcMan).get
            ⟨k, hjm⟩).2
          = ((segs.get ⟨i, hi⟩).srcMan.children.get ⟨k, hk2⟩).get "id" := by
        rw [hentry]
      have hmem : a ∈ out := by
        rw [← hs2]
        exact (AtagFix.sortChildren_perm hsc).mem_iff.mpr ha
      rw [← hval, ← hshape]
      exact hmem

/-- Witness for C1: in the concrete one-segment atag file, the align
element pointing at original source word a1 is rewritten to out=a2
(manual id of the first source word) and in=b5 (manual id of the looked
up target word) and appears in the written file. -/
theorem update_atag_remaps_witness :
    ∃ inval mt,
      (Xml.XTree.mk "align" [("in", "b3"), ("out", "a1")]
          none none []).get "in" = some inval ∧
      Xml.dictLookup
        (AtagFix.orig_man_mapping
          (Xml.XTree.mk "tree" [] none none
            [Xml.XTree.mk "W" [("id", "3")] (some "u") none []])
          (Xml.XTree.mk "tree" [] none none
            [Xml.XTree.mk "W" [("id", "5")] (some "u") none []]))
        (some (inval.drop 1)) = some mt ∧
      ((Xml.XTree.mk "align" [("in", "b3"), ("out", "a1")]
          none none []).set "out" "a2").set
        "in" ("b" ++ AtagFix.fstr mt)
        ∈ [Xml.XTree.mk "salign" [("src", "1"), ("tgt", "1")] none none [],
           Xml.XTree.mk "align" [("in", "b5"), ("out", "a2")]
             none none []] :=
  update_atag_remaps "a" "b"
    [⟨Xml.XTree.mk "tree" [] none none
        [Xml.XTree.mk "W" [("id", "1")] (some "x") none [],
         Xml.XTree.mk "W" [("id", "2")] (some "y") none []],
      Xml.XTree.mk "tree" [] none none
        [Xml.XTree.mk "W" [("id", "2")] (some "x") none [],
         Xml.XTree.mk "W" [("id", "3")] (some "y") none []],
      Xml.XTree.mk "tree" [] none none
        [Xml.XTree.mk "W" [("id", "3")] (some "u") none []],
      Xml.XTree.mk "tree" [] none none
        [Xml.XTree.mk "W" [("id", "5")] (some "u") none []]⟩]
    [Xml.XTree.mk "salign" [("src", "1"), ("tgt", "1")] none none [],
     Xml.XTree.mk "align" [("in", "b3"), ("out", "a1")] none none [],
     Xml.XTree.mk "align" [("in", "b9"), ("out", "a9")] none none []]
    [Xml.XTree.mk "salign" [("src", "1"), ("tgt", "1")] none none [],
     Xml.XTree.mk "align" [("in", "b5"), ("out", "a2")] none none []]
    ⟨Xml.XTree.mk "tree" [] none none
        [Xml.XTree.mk "W" [("id", "1")] (some "x") none [],
         Xml.XTree.mk "W" [("id", "2")] (some "y") none []],
      Xml.XTree.mk "tree" [] none none
        [Xml.XTree.mk "W" [("id", "2")] (some "x") none [],
         Xml.XTree.mk "W" [("id", "3")] (some "y") none []],
      Xml.XTree.mk "tree" [] none none
        [Xml.XTree.mk "W" [("id", "3")] (some "u") none []],
      Xml.XTree.mk "tree" [] none none
        [Xml.XTree.mk "W" [("id", "5")] (some "u") none []]⟩
    0 (by decide) rfl rfl rfl rfl (by decide) (by decide)
    0 (by decide) (by decide)
    (Xml.XTree.mk "align" [("in", "b3"), ("out", "a1")] none none [])
    (List.mem_cons_of_mem _ (List.mem_cons_self _ _)) rfl rfl
